import Mathlib

/-!
Verification of the stacks-blockchain fork's spec against its code.

Part 1 embeds the hex codec of `src/macros-common/src/utils.rs`
(`hex_bytes`, `to_hex`, the `Pair` iterator semantics, `HexError`).

Part 2 embeds the contract-call dispatcher of
`src/src/clarity_vm/special.rs` (`handle_contract_call_special_cases`).

Part 3 models the MARF trie storage engine whose modules are re-exported
by `src/marf-common/src/storage.rs` but whose implementation files are
not part of this tree; those definitions are modelled from the spec.
-/

namespace StacksHex

/-- Hex deserialization error, from `HexError` in `src/macros-common/src/utils.rs`:
`BadLength(usize)` and `BadCharacter(char)`. -/
inductive HexError where
  | BadLength : Nat → HexError
  | BadCharacter : Char → HexError
deriving DecidableEq, Repr

/-- Rust `char::to_digit(16)`: accepts `0`-`9`, `a`-`f`, `A`-`F` (ASCII only)
and returns the digit value, else `None`. -/
def charToDigit16 (c : Char) : Option Nat :=
  let n := c.toNat
  if 48 ≤ n ∧ n ≤ 57 then some (n - 48)
  else if 97 ≤ n ∧ n ≤ 102 then some (n - 97 + 10)
  else if 65 ≤ n ∧ n ≤ 70 then some (n - 65 + 10)
  else none

/-- The pair-at-a-time loop of `hex_bytes`: the fold over `s.chars().pair()`
keeps the first error (checking the first character of a pair before the
second), pushes `f * 0x10 + s` per good pair, and the trailing
`iter.remainder()` check yields `BadLength(s.len())` only when every complete
pair parsed. `n` is the length of the whole input string. -/
def hexBytesGo (n : Nat) : List Char → Except HexError (List Nat)
  | [] => .ok []
  | [_] => .error (.BadLength n)
  | f :: s :: rest =>
    match charToDigit16 f with
    | none => .error (.BadCharacter f)
    | some df =>
      match charToDigit16 s with
      | none => .error (.BadCharacter s)
      | some ds =>
        match hexBytesGo n rest with
        | .ok v => .ok ((df * 16 + ds) :: v)
        | .error e => .error e

/-- The UTF-8 byte length of a string given as its character list: Rust's
`s.len()`, which the source passes to `BadLength` (not the character
count). -/
def utf8Len (s : List Char) : Nat :=
  (s.map Char.utf8Size).sum

/-- Function `hex_bytes` from `src/macros-common/src/utils.rs`: convert a
hexadecimal-encoded string (as its character list) to its bytes. The
`BadLength` payload is `s.len()`, the UTF-8 byte length. -/
def hexBytes (s : List Char) : Except HexError (List Nat) :=
  hexBytesGo (utf8Len s) s

/-- The low hex digit characters produced by Rust's `{:02x}` formatting. -/
def hexDigitChar (n : Nat) : Char :=
  if n < 10 then Char.ofNat (48 + n) else Char.ofNat (97 + (n - 10))

/-- One byte formatted by `{:02x}`: two lowercase hex digits. -/
def byteToHex (b : Nat) : List Char :=
  [hexDigitChar (b / 16), hexDigitChar (b % 16)]

/-- Function `to_hex` from `src/macros-common/src/utils.rs`: convert a byte slice to a
lowercase hex string (as a character list). -/
def toHex (s : List Nat) : List Char :=
  s.foldr (fun b acc => byteToHex b ++ acc) []

/-- Whether Rust's `char::to_digit(16)` accepts the character. -/
def isHexDigit (c : Char) : Bool :=
  (charToDigit16 c).isSome

/-- The hex digit value of a character, defaulting to 0. -/
def hexVal (c : Char) : Nat :=
  (charToDigit16 c).getD 0

/-- Whether the `i`-th complete character pair of `s` consists of two hex
digits (positions `2*i` and `2*i+1`). -/
def pairGood (s : List Char) (i : Nat) : Bool :=
  isHexDigit (s.getD (2 * i) ' ') && isHexDigit (s.getD (2 * i + 1) ' ')

end StacksHex

namespace StacksPox

/-- The `RuntimeErrorType` variants used by `src/src/clarity_vm/special.rs`. -/
inductive RuntimeErrorType where
  | DefunctPoxContract
deriving DecidableEq

/-- The error type `vm::errors::Error` as used by `special.rs` (the stack-trace payload of
`Error::Runtime(_, None)` is dropped). -/
inductive ClarityError where
  | Runtime : RuntimeErrorType → ClarityError
deriving DecidableEq

/-- A Clarity principal; `special.rs` only passes it through. -/
abbrev PrincipalData := String

/-- A Clarity value; `special.rs` forwards it to the PoX handlers opaquely
on the paths this development inspects. -/
structure Value where
  raw : Nat
deriving DecidableEq

/-- A transaction event as pushed by the PoX handlers. -/
inductive StacksTransactionEvent where
  | STXLockEvent (lockedAmount : Nat) (unlockHeight : Nat) (lockedAddress : PrincipalData)
deriving DecidableEq

/-- An event batch (`global_context.event_batches` entries). -/
structure EventBatch where
  events : List StacksTransactionEvent
deriving DecidableEq

/-- The parts of `ClarityDatabase` read by `handle_contract_call_special_cases`:
`get_v1_unlock_height`, `get_current_burnchain_block_height`, plus abstract
lock state mutated only by the PoX handlers. -/
structure ClarityDatabase where
  v1UnlockHeight : Nat
  currentBurnchainBlockHeight : Nat
  locks : List (PrincipalData × Nat × Nat)
deriving DecidableEq

/-- The `vm::contexts::GlobalContext` fields touched by `special.rs`:
the `mainnet` flag, `database`, `cost_track`, and `event_batches`. -/
structure GlobalContext where
  mainnet : Bool
  database : ClarityDatabase
  costTrack : Nat
  eventBatches : List EventBatch
deriving DecidableEq

/-- Fully qualified contract identifier (issuer principal plus name). -/
structure QualifiedContractIdentifier where
  issuer : String
  name : String
deriving DecidableEq

/-- Constant `POX_1_NAME` from `chainstate::stacks::boot`. -/
def POX_1_NAME : String := "pox"

/-- Constant `POX_2_NAME` from `chainstate::stacks::boot`. -/
def POX_2_NAME : String := "pox-2"

/-- Modelled from the spec: `util_lib::boot::boot_code_id` is not under
`src/`; it builds the identifier of a boot contract from its name and the
network flag, with a fixed issuer per network. -/
def boot_code_id (name : String) (mainnet : Bool) : QualifiedContractIdentifier :=
  { issuer := if mainnet then "boot-address-mainnet" else "boot-address-testnet"
    name := name }

/-- The type of the PoX special-case handlers
(`handle_pox_v1_api_contract_call` / `handle_pox_v2_api_contract_call`):
they read and update the global context and may fail. Their bodies call
`StacksChainState` lock operations that are not under `src/`, so the
dispatcher is verified for every possible handler behaviour. -/
abbrev PoxHandler :=
  GlobalContext → Option PrincipalData → String → Value →
    GlobalContext × Except ClarityError Unit

/-- Function `handle_contract_call_special_cases` from `src/src/clarity_vm/special.rs`:
dispatches on the called contract id; for the PoX-1 boot contract it first
rejects calls at or past the v1 unlock height with `DefunctPoxContract`
(mutating nothing), otherwise runs the v1 handler; for the PoX-2 boot
contract it runs the v2 handler; for every other contract id it returns
`Ok(())` without touching the context. -/
def handle_contract_call_special_cases
    (handlePoxV1 handlePoxV2 : PoxHandler)
    (globalContext : GlobalContext) (sender : Option PrincipalData)
    (_sponsor : Option PrincipalData)
    (contract_id : QualifiedContractIdentifier) (function_name : String)
    (result : Value) : GlobalContext × Except ClarityError Unit :=
  if contract_id = boot_code_id POX_1_NAME globalContext.mainnet then
    if globalContext.database.v1UnlockHeight ≤
        globalContext.database.currentBurnchainBlockHeight then
      (globalContext, .error (.Runtime .DefunctPoxContract))
    else
      handlePoxV1 globalContext sender function_name result
  else if contract_id = boot_code_id POX_2_NAME globalContext.mainnet then
    handlePoxV2 globalContext sender function_name result
  else
    (globalContext, .ok ())

end StacksPox

namespace Marf

mutual
/-- Modelled from the spec: the radix trie node model of the MARF engine
(module `node model` re-exported by `src/marf-common/src/storage.rs`, whose
implementation is not under `src/`). A node carries a compressed path
segment, an optional leaf value, and child slots ordered by slot symbol. -/
inductive Trie where
  | node : (seg : List Nat) → (val : Option Nat) → (children : Children) → Trie
/-- Modelled from the spec: the ordered child-slot list of a trie node,
each entry pairing a slot symbol with the child subtree. -/
inductive Children where
  | nil : Children
  | cons : (slot : Nat) → (child : Trie) → (rest : Children) → Children
end

/-- Boolean test that the first list is a leading segment of the second. -/
def begins : List Nat → List Nat → Bool
  | [], _ => true
  | _ :: _, [] => false
  | a :: as, b :: bs => if a = b then begins as bs else false

/-- Longest common leading segment of two symbol lists. -/
def lcp : List Nat → List Nat → List Nat
  | a :: as, b :: bs => if a = b then a :: lcp as bs else []
  | _, _ => []

/-- Number of child slots in use. -/
def Children.count : Children → Nat
  | .nil => 0
  | .cons _ _ rest => Children.count rest + 1

/-- First child stored under the given slot symbol. -/
def Children.findSlot : Children → Nat → Option Trie
  | .nil, _ => none
  | .cons b' c rest, b => if b = b' then some c else Children.findSlot rest b

mutual
/-- Modelled from the spec: `TrieStorageConnection.get(key)` dispatched
through `TrieCursor.seek`: walk the compressed path, descend on a full
segment match with key remaining, return the leaf value on a full match
with no key remaining, and report absent on divergence. -/
def Trie.get : Trie → List Nat → Option Nat
  | .node seg val cs, k =>
    if begins seg k then
      match k.drop seg.length with
      | [] => val
      | b :: k' => Children.getAt cs b k'
    else none
/-- Modelled from the spec: the cursor step that selects the child slot
matching the next key symbol and continues the walk there. -/
def Children.getAt : Children → Nat → List Nat → Option Nat
  | .nil, _, _ => none
  | .cons b' c rest, b, k' =>
    if b = b' then Trie.get c k' else Children.getAt rest b k'
end

/-- A leaf node holding a value at the end of a compressed path. -/
def Trie.leaf (k : List Nat) (v : Nat) : Trie := .node k (some v) .nil

/-- Two fresh children in slot order (used when a compressed path splits). -/
def Children.twoSorted (b1 : Nat) (c1 : Trie) (b2 : Nat) (c2 : Trie) : Children :=
  if b2 < b1 then .cons b2 c2 (.cons b1 c1 .nil) else .cons b1 c1 (.cons b2 c2 .nil)

mutual
/-- Modelled from the spec: `TrieStorageConnection.insert(key, value)`
through the cursor: on a full segment match set or descend; on a partial
match split the compressed path at the divergence point and splice in a
new branch, never mutating ancestor tries (the working trie is rebuilt
copy-on-write). -/
def Trie.ins : Trie → List Nat → Nat → Trie
  | .node seg val cs, k, v =>
    if begins seg k then
      match k.drop seg.length with
      | [] => .node seg (some v) cs
      | b :: k' => .node seg val (Children.insAt cs b k' v)
    else
      match seg.drop (lcp seg k).length, k.drop (lcp seg k).length with
      | bOld :: segOld, [] =>
        .node (lcp seg k) (some v) (.cons bOld (.node segOld val cs) .nil)
      | bOld :: segOld, bNew :: k' =>
        .node (lcp seg k) none
          (Children.twoSorted bOld (.node segOld val cs) bNew (Trie.leaf k' v))
      | [], _ => .node seg val cs
/-- Modelled from the spec: slot-ordered insertion of the branch taken by
the key being written: descend into an existing slot or splice a fresh
leaf child at its slot position. -/
def Children.insAt : Children → Nat → List Nat → Nat → Children
  | .nil, b, k', v => .cons b (Trie.leaf k' v) .nil
  | .cons b' c rest, b, k', v =>
    if b = b' then .cons b' (Trie.ins c k' v) rest
    else if b < b' then .cons b (Trie.leaf k' v) (.cons b' c rest)
    else .cons b' c (Children.insAt rest b k' v)
end

/-- The empty trie (genesis root before any write). -/
def Trie.empty : Trie := .node [] none .nil

/-- Modelled from the spec: the full insert entry point; writing the first
key into the empty root lays the whole key down as one compressed path. -/
def Trie.insert : Trie → List Nat → Nat → Trie
  | .node [] none .nil, k, v => Trie.leaf k v
  | t, k, v => Trie.ins t k v

mutual
/-- Modelled from the spec: deletion through the cursor. Marks the leaf
absent and, when a node is left with a single child and no value,
collapses it by merging its compressed path with the child\'s; a subtree
left with neither value nor children disappears (`none`). -/
def Trie.del : Trie → List Nat → Option Trie
  | .node seg val cs, k =>
    if begins seg k then
      match k.drop seg.length with
      | [] =>
        match val with
        | none => some (.node seg none cs)
        | some _ =>
          match cs with
          | .nil => none
          | .cons b (.node cseg cval ccs) .nil =>
            some (.node (seg ++ b :: cseg) cval ccs)
          | _ => some (.node seg none cs)
      | b :: k' =>
        match Children.delAt cs b k' with
        | .nil => if val.isSome then some (.node seg val .nil) else none
        | .cons b1 (.node cseg cval ccs) .nil =>
          if val.isSome then
            some (.node seg val (.cons b1 (.node cseg cval ccs) .nil))
          else some (.node (seg ++ b1 :: cseg) cval ccs)
        | cs' => some (.node seg val cs')
    else some (.node seg val cs)
/-- Modelled from the spec: deletion step over the child slots: recurse
into the slot on the key\'s path and drop the slot entirely when its
subtree vanishes. -/
def Children.delAt : Children → Nat → List Nat → Children
  | .nil, _, _ => .nil
  | .cons b' c rest, b, k' =>
    if b = b' then
      match Trie.del c k' with
      | none => rest
      | some c' => .cons b' c' rest
    else .cons b' c (Children.delAt rest b k')
end

/-- Modelled from the spec: the full delete entry point; a root left empty
becomes the empty trie again. -/
def Trie.delete (t : Trie) (k : List Nat) : Trie :=
  (Trie.del t k).getD Trie.empty

/-- All slots in the list are strictly greater than the bound. -/
def Children.slotsGt : Children → Nat → Bool
  | .nil, _ => true
  | .cons b' _ rest, b => decide (b < b') && Children.slotsGt rest b

mutual
/-- Well-formedness of a non-root subtree: slots strictly increasing and
every valueless node has at least two children (path compression). -/
def Trie.wfB : Trie → Bool
  | .node _ val cs =>
    (val.isSome || decide (2 ≤ Children.count cs)) && Children.wfB cs
/-- Well-formedness of a child list: children well formed and slot symbols
strictly increasing. -/
def Children.wfB : Children → Bool
  | .nil => true
  | .cons b c rest => Trie.wfB c && Children.wfB rest && Children.slotsGt rest b
end

/-- Well-formedness of a root trie: children well formed and slot-sorted,
the root never pairs a missing value with exactly one child, and only the
canonical empty root is childless and valueless. -/
def Trie.wfRoot : Trie → Bool
  | .node seg val cs =>
    Children.wfB cs &&
    (val.isSome || decide (Children.count cs ≠ 1)) &&
    (val.isSome || decide (1 ≤ Children.count cs) || decide (seg = ([] : List Nat)))

mutual
/-- The path-compression observable of spec §8.6: no node pairs a missing
value with exactly one child. -/
def Trie.noSingle : Trie → Bool
  | .node _ val cs =>
    (val.isSome || decide (Children.count cs ≠ 1)) && Children.noSingleC cs
/-- Child-list form of `Trie.noSingle`. -/
def Children.noSingleC : Children → Bool
  | .nil => true
  | .cons _ c rest => Trie.noSingle c && Children.noSingleC rest
end

/-- Length-prefixed, self-delimiting encoding of a symbol list. -/
def encList (xs : List Nat) : List Nat := xs.length :: xs

/-- Self-delimiting encoding of an optional leaf value. -/
def encOptVal : Option Nat → List Nat
  | none => [0]
  | some v => [1, v]

/-- Encoding of an ordered (slot, child hash) list. -/
def encSlots : List (Nat × List Nat) → List Nat
  | [] => []
  | (b, h) :: rest => b :: (encList h ++ encSlots rest)

/-- Modelled from the spec: the node hash is a pure function of the node\'s
path segment, its ordered child hashes (by slot position), and its leaf
value. The cryptographic hash is idealised as an injective self-delimiting
encoding, standing in for a collision-free digest. -/
def hashNode (seg : List Nat) (childSlotHashes : List (Nat × List Nat))
    (val : Option Nat) : List Nat :=
  encOptVal val ++ encList seg ++ childSlotHashes.length :: encSlots childSlotHashes

mutual
/-- Modelled from the spec: `NodeHashReader.hash_of` computed bottom-up
over the subtree. -/
def Trie.hash : Trie → List Nat
  | .node seg val cs => hashNode seg (Children.slotHashes cs) val
/-- The ordered (slot, hash) pairs of a child list. -/
def Children.slotHashes : Children → List (Nat × List Nat)
  | .nil => []
  | .cons b c rest => (b, Trie.hash c) :: Children.slotHashes rest
end

/-- The ordered (slot, hash) pairs of a child list, omitting one slot. -/
def Children.slotHashesDrop : Children → Nat → List (Nat × List Nat)
  | .nil, _ => []
  | .cons b' c rest, b =>
    if b = b' then Children.slotHashesDrop rest b
    else (b', Trie.hash c) :: Children.slotHashesDrop rest b

/-- One step of a Merkle proof: a node\'s path segment, its leaf value, the
slot taken toward the key, and the sibling (slot, hash) pairs. -/
structure ProofStep where
  seg : List Nat
  val : Option Nat
  slot : Nat
  siblings : List (Nat × List Nat)
deriving DecidableEq

/-- Modelled from the spec: a Merkle proof — the ordered sibling hashes and
path segments along the cursor\'s path to the key, ending with the terminal
node\'s segment and child hashes. -/
structure MerkleProof where
  steps : List ProofStep
  termSeg : List Nat
  termChildren : List (Nat × List Nat)
deriving DecidableEq

mutual
/-- Modelled from the spec: `Connection.prove(key)` walks the cursor path
and collects, per node, the path segment, value, slot taken and sibling
hashes; it fails when the key is absent and never mutates storage. -/
def Trie.prove : Trie → List Nat → Option MerkleProof
  | .node seg val cs, k =>
    if begins seg k then
      match k.drop seg.length with
      | [] =>
        match val with
        | some _ => some ⟨[], seg, Children.slotHashes cs⟩
        | none => none
      | b :: k' =>
        match Children.proveAt cs b k' with
        | some pf =>
          some ⟨⟨seg, val, b, Children.slotHashesDrop cs b⟩ :: pf.steps,
                pf.termSeg, pf.termChildren⟩
        | none => none
    else none
/-- Modelled from the spec: the proof-collection step over child slots. -/
def Children.proveAt : Children → Nat → List Nat → Option MerkleProof
  | .nil, _, _ => none
  | .cons b' c rest, b, k' =>
    if b = b' then Trie.prove c k' else Children.proveAt rest b k'
end

/-- Slot-ordered insertion into a (slot, hash) list, replacing an existing
entry for the slot. -/
def insOrdered : List (Nat × List Nat) → Nat → List Nat → List (Nat × List Nat)
  | [], b, h => [(b, h)]
  | (b', h') :: rest, b, h =>
    if b = b' then (b, h) :: rest
    else if b < b' then (b, h) :: (b', h') :: rest
    else (b', h') :: insOrdered rest b h

/-- Modelled from the spec: the verifier\'s bottom-up recomputation of the
root hash from a proof and the claimed terminal hash. -/
def recomputeRoot : List ProofStep → List Nat → List Nat
  | [], leafHash => leafHash
  | s :: rest, leafHash =>
    hashNode s.seg (insOrdered s.siblings s.slot (recomputeRoot rest leafHash)) s.val

/-- The key spelled by a proof: the concatenated segments and slots of its
steps followed by the terminal segment. -/
def proofPath (pf : MerkleProof) : List Nat :=
  (pf.steps.map (fun s => s.seg ++ [s.slot])).flatten ++ pf.termSeg

/-- Modelled from the spec: proof verification — the proof must spell the
key and recompute to the trusted root hash with the claimed value at the
terminal node. -/
def verifyProof (rootHash : List Nat) (k : List Nat) (v : Nat)
    (pf : MerkleProof) : Bool :=
  decide (proofPath pf = k) &&
  decide (recomputeRoot pf.steps
    (hashNode pf.termSeg pf.termChildren (some v)) = rootHash)

/-- Modelled from the spec: the recoverable storage-error taxonomy of §7. -/
inductive StorageError where
  | UnknownParent
  | UnknownBlock
  | ConcurrentWriterViolation
deriving DecidableEq

/-- Lookup of a block id in the block-id → root-trie index. -/
def lookupBlock : List (Nat × Trie) → Nat → Option Trie
  | [], _ => none
  | (b, t) :: rest, blockId => if blockId = b then some t else lookupBlock rest blockId

/-- Modelled from the spec: `TrieFileStorage` — the top-level store owning
the block-id → root mapping and the single-writer flag. -/
structure TrieFileStorage where
  index : List (Nat × Trie)
  writerActive : Bool

/-- Modelled from the spec: `TrieStorageTransaction` wrapping a connection
whose `UncommittedState` owns the working trie for one block, rooted at the
parent block\'s committed trie. -/
structure TrieStorageTransaction where
  parent : Nat
  uncommitted : Trie

/-- Modelled from the spec: `begin_block(parent_block_id)` — rejects an
unknown parent with `UnknownParent` and mutates nothing; rejects a second
writer with `ConcurrentWriterViolation`; otherwise marks the writer active
and opens a transaction whose working trie starts at the parent\'s. -/
def beginBlock (st : TrieFileStorage) (parent : Nat) :
    TrieFileStorage × Except StorageError TrieStorageTransaction :=
  match lookupBlock st.index parent with
  | none => (st, .error .UnknownParent)
  | some t =>
    if st.writerActive then (st, .error .ConcurrentWriterViolation)
    else ({ st with writerActive := true }, .ok ⟨parent, t⟩)

/-- Modelled from the spec: `open_read(block_id)` — serves any block id
present in the index and rejects others with `UnknownBlock`. -/
def openRead (st : TrieFileStorage) (blockId : Nat) : Except StorageError Trie :=
  match lookupBlock st.index blockId with
  | none => .error .UnknownBlock
  | some t => .ok t

/-- Modelled from the spec: a read on the transaction\'s connection sees the
working (uncommitted) trie. -/
def txGet (tx : TrieStorageTransaction) (k : List Nat) : Option Nat :=
  Trie.get tx.uncommitted k

/-- Modelled from the spec: an insert on the transaction\'s connection lands
in `UncommittedState` only. -/
def txInsert (tx : TrieStorageTransaction) (k : List Nat) (v : Nat) :
    TrieStorageTransaction :=
  { tx with uncommitted := Trie.insert tx.uncommitted k v }

/-- Modelled from the spec: a delete on the transaction\'s connection lands
in `UncommittedState` only. -/
def txDelete (tx : TrieStorageTransaction) (k : List Nat) : TrieStorageTransaction :=
  { tx with uncommitted := Trie.delete tx.uncommitted k }

/-- A write operation applied through an open transaction. -/
inductive TxOp where
  | insertOp (k : List Nat) (v : Nat)
  | deleteOp (k : List Nat)

/-- Application of one write operation to the open transaction. -/
def applyTxOp (tx : TrieStorageTransaction) : TxOp → TrieStorageTransaction
  | .insertOp k v => txInsert tx k v
  | .deleteOp k => txDelete tx k

/-- Application of a sequence of write operations, in order. -/
def applyTxOps (tx : TrieStorageTransaction) (ops : List TxOp) :
    TrieStorageTransaction :=
  ops.foldl applyTxOp tx

/-- Modelled from the spec: `commit(new_block_id)` seals the working trie,
registers `new_block_id → root` in the index, releases the writer, and
returns the root hash. -/
def commit (st : TrieFileStorage) (tx : TrieStorageTransaction) (newBlockId : Nat) :
    TrieFileStorage × List Nat :=
  ({ index := (newBlockId, tx.uncommitted) :: st.index, writerActive := false },
   Trie.hash tx.uncommitted)

/-- Modelled from the spec: `rollback()` discards `UncommittedState`
entirely and releases the writer; the index is untouched. -/
def rollback (st : TrieFileStorage) (_tx : TrieStorageTransaction) :
    TrieFileStorage :=
  { st with writerActive := false }

/-- Every committed root in the store is a well-formed trie. -/
def wfStore (st : TrieFileStorage) : Bool :=
  st.index.all (fun p => Trie.wfRoot p.2)

/-- The whole engine state: the store plus the optional open transaction. -/
structure MarfSystem where
  store : TrieFileStorage
  txn : Option TrieStorageTransaction

/-- One system step: a write op lands in the open transaction, if any. -/
def sysStep (sys : MarfSystem) (op : TxOp) : MarfSystem :=
  { sys with txn := sys.txn.map (fun tx => applyTxOp tx op) }

/-- Running a sequence of write ops against the system. -/
def sysRun (sys : MarfSystem) (ops : List TxOp) : MarfSystem :=
  ops.foldl sysStep sys

/-- First hash stored under the given slot in a (slot, hash) list. -/
def lookupSlot : List (Nat × List Nat) → Nat → Option (List Nat)
  | [], _ => none
  | (b', h') :: rest, b => if b = b' then some h' else lookupSlot rest b

mutual
/-- Slot symbols strictly increasing at every node of the trie. -/
def Trie.slotsSorted : Trie → Bool
  | .node _ _ cs => Children.slotsSortedC cs
/-- Child-list form of `Trie.slotsSorted`. -/
def Children.slotsSortedC : Children → Bool
  | .nil => true
  | .cons b c rest =>
    Trie.slotsSorted c && Children.slotsSortedC rest && Children.slotsGt rest b
end

end Marf



namespace StacksHex

theorem toHex_nil : toHex [] = [] := rfl

theorem toHex_cons (b : Nat) (rest : List Nat) :
    toHex (b :: rest) = byteToHex b ++ toHex rest := rfl

/-- Decoding a single hex digit character produced by the encoder recovers
the digit. -/
theorem charToDigit16_hexDigitChar (d : Nat) (h : d < 16) :
    charToDigit16 (hexDigitChar d) = some d := by
  interval_cases d <;> rfl

/-- `hexBytesGo` inverts the byte-at-a-time encoder, for any recorded
total length `n`. -/
theorem hexBytesGo_toHex (n : Nat) (b : List Nat) (hb : ∀ x ∈ b, x < 256) :
    hexBytesGo n (toHex b) = .ok b := by
  induction b with
  | nil => rfl
  | cons x rest ih =>
    have hx : x < 256 := hb x (by simp)
    have hrest : ∀ y ∈ rest, y < 256 := fun y hy => hb y (by simp [hy])
    have hdiv : x / 16 < 16 := by omega
    have hmod : x % 16 < 16 := Nat.mod_lt _ (by norm_num)
    have hcons := toHex_cons x rest
    have h1 := charToDigit16_hexDigitChar (x / 16) hdiv
    have h2 := charToDigit16_hexDigitChar (x % 16) hmod
    have hx_eq : x / 16 * 16 + x % 16 = x := by omega
    cases htx : toHex rest with
    | nil =>
      simp only [hcons, htx, byteToHex, List.append_nil]
      simp only [hexBytesGo, h1, h2]
      rw [htx] at ih
      simp only [hexBytesGo] at ih
      have := ih hrest
      simp only [Except.ok.injEq] at this
      simp [this, hx_eq]
    | cons c cs =>
      simp only [hcons, htx, byteToHex, List.cons_append, List.nil_append]
      simp only [hexBytesGo, h1, h2]
      rw [htx] at ih
      rw [ih hrest]
      simp [hx_eq]

theorem isHexDigit_false_none (c : Char) (h : isHexDigit c = false) :
    charToDigit16 c = none := by
  unfold isHexDigit at h
  cases hc : charToDigit16 c with
  | none => rfl
  | some d => rw [hc] at h; simp at h

theorem isHexDigit_true_some (c : Char) (h : isHexDigit c = true) :
    ∃ d, charToDigit16 c = some d := by
  unfold isHexDigit at h
  cases hc : charToDigit16 c with
  | none => rw [hc] at h; simp at h
  | some d => exact ⟨d, rfl⟩

theorem getD_two_shift (f g : Char) (rest : List Char) (i : Nat) :
    (f :: g :: rest).getD (2 * (i + 1)) ' ' = rest.getD (2 * i) ' '
    ∧ (f :: g :: rest).getD (2 * (i + 1) + 1) ' ' = rest.getD (2 * i + 1) ' ' := by
  constructor
  · rw [show 2 * (i + 1) = 2 * i + 1 + 1 by ring]
    simp [List.getD_cons_succ]
  · rw [show 2 * (i + 1) + 1 = 2 * i + 1 + 1 + 1 by ring]
    simp [List.getD_cons_succ]

theorem pairGood_shift (f g : Char) (rest : List Char) (i : Nat) :
    pairGood (f :: g :: rest) (i + 1) = pairGood rest i := by
  unfold pairGood
  rw [(getD_two_shift f g rest i).1, (getD_two_shift f g rest i).2]

theorem hexBytesGo_ok_iff : ∀ (n : Nat) (s : List Char),
    (∃ v, hexBytesGo n s = .ok v) ↔ (s.length % 2 = 0 ∧ ∀ c ∈ s, isHexDigit c = true)
  | n, [] => by simp [hexBytesGo]
  | n, [c] => by
    constructor
    · rintro ⟨v, hv⟩
      simp [hexBytesGo] at hv
    · rintro ⟨h1, -⟩
      simp at h1
  | n, f :: g :: rest => by
    have ih := hexBytesGo_ok_iff n rest
    constructor
    · rintro ⟨v, hv⟩
      simp only [hexBytesGo] at hv
      cases hf : charToDigit16 f with
      | none => rw [hf] at hv; simp at hv
      | some df =>
        rw [hf] at hv
        cases hg : charToDigit16 g with
        | none => rw [hg] at hv; simp at hv
        | some dg =>
          rw [hg] at hv
          cases hr : hexBytesGo n rest with
          | error e => rw [hr] at hv; simp at hv
          | ok v' =>
            have hrest := ih.mp ⟨v', hr⟩
            have hr1 := hrest.1
            refine ⟨by simp only [List.length_cons]; omega, ?_⟩
            intro c hc
            rcases hc with _ | ⟨_, hc⟩
            · simp [isHexDigit, hf]
            · rcases hc with _ | ⟨_, hc⟩
              · simp [isHexDigit, hg]
              · exact hrest.2 c hc
    · rintro ⟨h1, h2⟩
      obtain ⟨df, hf⟩ := isHexDigit_true_some f (h2 f (by simp))
      obtain ⟨dg, hg⟩ := isHexDigit_true_some g (h2 g (by simp))
      have hrl : rest.length % 2 = 0 := by
        simp only [List.length_cons] at h1
        omega
      obtain ⟨v', hv'⟩ := ih.mpr ⟨hrl, fun c hc => h2 c (by simp [hc])⟩
      exact ⟨(df * 16 + dg) :: v', by simp [hexBytesGo, hf, hg, hv']⟩

theorem hexBytesGo_ok_shape : ∀ (n : Nat) (s : List Char) (v : List Nat),
    hexBytesGo n s = .ok v →
    v.length = s.length / 2 ∧
    ∀ i, i < v.length →
      v.getD i 0 = 16 * hexVal (s.getD (2 * i) ' ') + hexVal (s.getD (2 * i + 1) ' ')
  | n, [], v => by
    intro h
    simp [hexBytesGo] at h
    subst h
    exact ⟨rfl, by intro i hi; simp at hi⟩
  | n, [c], v => by
    intro h
    simp [hexBytesGo] at h
  | n, f :: g :: rest, v => by
    intro h
    simp only [hexBytesGo] at h
    cases hf : charToDigit16 f with
    | none => rw [hf] at h; simp at h
    | some df =>
      rw [hf] at h
      cases hg : charToDigit16 g with
      | none => rw [hg] at h; simp at h
      | some dg =>
        rw [hg] at h
        cases hr : hexBytesGo n rest with
        | error e => rw [hr] at h; simp at h
        | ok v' =>
          rw [hr] at h
          simp only [Except.ok.injEq] at h
          subst h
          obtain ⟨hlen, hidx⟩ := hexBytesGo_ok_shape n rest v' hr
          constructor
          · simp only [List.length_cons, hlen]
            omega
          · intro i hi
            cases i with
            | zero =>
              have hg0 : (f :: g :: rest).getD 0 ' ' = f := rfl
              have hg1 : (f :: g :: rest).getD 1 ' ' = g := rfl
              simp only [Nat.mul_zero, Nat.zero_add, hg0, hg1, List.getD_cons_zero,
                hexVal, hf, hg, Option.getD_some]
              omega
            | succ i' =>
              rw [(getD_two_shift f g rest i').1, (getD_two_shift f g rest i').2]
              simp only [List.getD_cons_succ]
              exact hidx i' (by simpa using hi)

theorem hexBytesGo_first_bad : ∀ (n : Nat) (s : List Char) (i : Nat),
    (∀ j, j < i → pairGood s j = true) → 2 * i + 1 < s.length → pairGood s i = false →
    hexBytesGo n s = .error (.BadCharacter
      (if isHexDigit (s.getD (2 * i) ' ') then s.getD (2 * i + 1) ' ' else s.getD (2 * i) ' '))
  | n, [], i => by
    intro _ hlen _
    simp at hlen
  | n, [c], i => by
    intro _ hlen _
    simp at hlen
  | n, f :: g :: rest, i => by
    intro hprev hlen hbad
    cases i with
    | zero =>
      have hg0 : (f :: g :: rest).getD 0 ' ' = f := rfl
      have hg1 : (f :: g :: rest).getD 1 ' ' = g := rfl
      simp only [pairGood, Nat.mul_zero, Nat.zero_add, hg0, hg1] at hbad
      simp only [Nat.mul_zero, Nat.zero_add, hg0, hg1]
      cases hfd : isHexDigit f with
      | false =>
        have hf := isHexDigit_false_none f hfd
        simp [hexBytesGo, hf, hfd]
      | true =>
        rw [hfd] at hbad
        simp only [Bool.true_and] at hbad
        obtain ⟨df, hf⟩ := isHexDigit_true_some f hfd
        have hg := isHexDigit_false_none g hbad
        simp [hexBytesGo, hf, hg, hfd]
    | succ i' =>
      have h0 := hprev 0 (by omega)
      simp only [pairGood, Nat.mul_zero, Nat.zero_add] at h0
      have hg0 : (f :: g :: rest).getD 0 ' ' = f := rfl
      have hg1 : (f :: g :: rest).getD 1 ' ' = g := rfl
      rw [hg0, hg1, Bool.and_eq_true] at h0
      obtain ⟨df, hf⟩ := isHexDigit_true_some f h0.1
      obtain ⟨dg, hg⟩ := isHexDigit_true_some g h0.2
      have hprev' : ∀ j, j < i' → pairGood rest j = true := by
        intro j hj
        rw [← pairGood_shift f g rest j]
        exact hprev (j + 1) (by omega)
      have hlen' : 2 * i' + 1 < rest.length := by
        simp only [List.length_cons] at hlen
        omega
      have hbad' : pairGood rest i' = false := by
        rw [← pairGood_shift f g rest i']
        exact hbad
      have ih := hexBytesGo_first_bad n rest i' hprev' hlen' hbad'
      rw [(getD_two_shift f g rest i').1, (getD_two_shift f g rest i').2]
      simp [hexBytesGo, hf, hg, ih]

theorem hexBytesGo_odd : ∀ (n : Nat) (s : List Char),
    s.length % 2 = 1 → (∀ i, 2 * i + 1 < s.length → pairGood s i = true) →
    hexBytesGo n s = .error (.BadLength n)
  | n, [] => by
    intro h _
    simp at h
  | n, [c] => fun _ _ => rfl
  | n, f :: g :: rest => by
    intro hodd hall
    have h0 := hall 0 (by simp)
    simp only [pairGood, Nat.mul_zero, Nat.zero_add] at h0
    have hg0 : (f :: g :: rest).getD 0 ' ' = f := rfl
    have hg1 : (f :: g :: rest).getD 1 ' ' = g := rfl
    rw [hg0, hg1, Bool.and_eq_true] at h0
    obtain ⟨df, hf⟩ := isHexDigit_true_some f h0.1
    obtain ⟨dg, hg⟩ := isHexDigit_true_some g h0.2
    have hodd' : rest.length % 2 = 1 := by
      simp only [List.length_cons] at hodd
      omega
    have hall' : ∀ i, 2 * i + 1 < rest.length → pairGood rest i = true := by
      intro i hi
      rw [← pairGood_shift f g rest i]
      exact hall (i + 1) (by simp only [List.length_cons]; omega)
    have ih := hexBytesGo_odd n rest hodd' hall'
    simp [hexBytesGo, hf, hg, ih]

/-- C8: for every byte slice `b`, `hex_bytes (to_hex b)` returns `Ok b`:
decoding is a left inverse of the hex encoder over all byte sequences. -/
theorem hex_bytes_to_hex_left_inverse (b : List Nat) (hb : ∀ x ∈ b, x < 256) :
    hexBytes (toHex b) = .ok b :=
  hexBytesGo_toHex (utf8Len (toHex b)) b hb

/-- Witness for C8 at a concrete byte sequence. -/
theorem hex_bytes_to_hex_left_inverse_witness :
    hexBytes (toHex [0, 26, 171, 255]) = .ok [0, 26, 171, 255] :=
  hex_bytes_to_hex_left_inverse [0, 26, 171, 255] (by decide)

/-- C9: `hex_bytes s` returns `Ok` iff `s` has even length and every
character is a hex digit; on success the result has `s.length / 2` bytes with
byte `i` equal to `16 * digit (s[2*i]) + digit (s[2*i+1])`; the first complete
pair containing a non-hex character yields `BadCharacter` of the offending
character (first component checked first); a string with an odd number of
characters whose complete pairs are all valid yields `BadLength` of the
string's UTF-8 byte length `s.len()`. -/
theorem hex_bytes_characterization (s : List Char) :
    ((∃ v, hexBytes s = .ok v) ↔ s.length % 2 = 0 ∧ ∀ c ∈ s, isHexDigit c = true)
    ∧ (∀ v, hexBytes s = .ok v →
        v.length = s.length / 2 ∧
        ∀ i, i < v.length →
          v.getD i 0 = 16 * hexVal (s.getD (2 * i) ' ') + hexVal (s.getD (2 * i + 1) ' '))
    ∧ (∀ i, (∀ j, j < i → pairGood s j = true) → 2 * i + 1 < s.length →
        pairGood s i = false →
        hexBytes s = .error (.BadCharacter
          (if isHexDigit (s.getD (2 * i) ' ') then s.getD (2 * i + 1) ' '
           else s.getD (2 * i) ' ')))
    ∧ (s.length % 2 = 1 → (∀ i, 2 * i + 1 < s.length → pairGood s i = true) →
        hexBytes s = .error (.BadLength (utf8Len s))) :=
  ⟨hexBytesGo_ok_iff (utf8Len s) s,
   fun v => hexBytesGo_ok_shape (utf8Len s) s v,
   fun i => hexBytesGo_first_bad (utf8Len s) s i,
   hexBytesGo_odd (utf8Len s) s⟩

/-- Witness for C9: the first bad pair of `"a1g2"` reports `'g'`, and the
odd-character string `"ab¿"` reports the UTF-8 byte length 4 (not the
character count 3), since the dangling character is two bytes. -/
theorem hex_bytes_characterization_witness :
    hexBytes ['a', '1', 'g', '2'] = .error (.BadCharacter 'g') ∧
    hexBytes ['a', 'b', '¿'] = .error (.BadLength 4) := by
  constructor
  · have h := (hex_bytes_characterization ['a', '1', 'g', '2']).2.2.1 1
      (by decide) (by decide) (by decide)
    simpa using h
  · have h := (hex_bytes_characterization ['a', 'b', '¿']).2.2.2
      (by decide) ?_
    · exact h
    · intro i hi
      simp only [List.length_cons, List.length_nil] at hi
      have h0 : i = 0 := by omega
      subst h0
      decide


end StacksHex

namespace StacksPox

/-- C10: when the called contract is neither the PoX-1 nor the PoX-2 boot
contract, `handle_contract_call_special_cases` returns `Ok(())` and leaves
the global context (database, cost tracker, event batches) unchanged,
whatever the PoX handlers would do. -/
theorem handle_contract_call_special_cases_frame
    (handlePoxV1 handlePoxV2 : PoxHandler)
    (globalContext : GlobalContext) (sender sponsor : Option PrincipalData)
    (contract_id : QualifiedContractIdentifier) (function_name : String)
    (result : Value)
    (h1 : contract_id ≠ boot_code_id POX_1_NAME globalContext.mainnet)
    (h2 : contract_id ≠ boot_code_id POX_2_NAME globalContext.mainnet) :
    handle_contract_call_special_cases handlePoxV1 handlePoxV2 globalContext
      sender sponsor contract_id function_name result =
      (globalContext, .ok ()) := by
  unfold handle_contract_call_special_cases
  rw [if_neg h1, if_neg h2]

/-- Witness for C10 at a concrete non-PoX contract id and nontrivial
handlers. -/
theorem handle_contract_call_special_cases_frame_witness :
    handle_contract_call_special_cases
      (fun g _ _ _ => ({ g with costTrack := g.costTrack + 1 }, .ok ()))
      (fun g _ _ _ => (g, .error (.Runtime .DefunctPoxContract)))
      ⟨true, ⟨3, 7, []⟩, 5, []⟩ (some "alice") none
      ⟨"user-address", "my-contract"⟩ "stack-stx" ⟨0⟩ =
      (⟨true, ⟨3, 7, []⟩, 5, []⟩, .ok ()) :=
  handle_contract_call_special_cases_frame _ _ _ _ _ _ _ _
    (by decide) (by decide)

end StacksPox

namespace Marf

theorem begins_refl : ∀ xs : List Nat, begins xs xs = true
  | [] => rfl
  | a :: as => by simp [begins, begins_refl as]

theorem begins_append (xs ys : List Nat) : begins xs (xs ++ ys) = true := by
  induction xs with
  | nil => rfl
  | cons a as ih => simp [begins, ih]

theorem begins_append_drop : ∀ (xs k : List Nat),
    begins xs k = true → xs ++ k.drop xs.length = k
  | [], k => by intro _; simp
  | a :: as, [] => by intro h; simp [begins] at h
  | a :: as, b :: bs => by
    intro h
    simp only [begins] at h
    by_cases hab : a = b
    · subst hab
      rw [if_pos rfl] at h
      have ih := begins_append_drop as bs h
      simp only [List.length_cons, List.drop_succ_cons, List.cons_append]
      rw [ih]
    · rw [if_neg hab] at h
      exact absurd h (by simp)

theorem begins_long_false : ∀ (xs : List Nat) (y : Nat) (ys : List Nat),
    begins (xs ++ y :: ys) xs = false
  | [], y, ys => rfl
  | a :: as, y, ys => by simp [begins, begins_long_false as y ys]

theorem begins_append_both : ∀ (xs s k : List Nat),
    begins (xs ++ s) (xs ++ k) = begins s k
  | [], s, k => rfl
  | a :: as, s, k => by simp [begins, begins_append_both as s k]

theorem lcp_begins_right : ∀ s k : List Nat, begins (lcp s k) k = true
  | [], _ => rfl
  | _ :: _, [] => rfl
  | a :: as, b :: bs => by
    by_cases hab : a = b
    · subst hab
      simp [lcp, begins, lcp_begins_right as bs]
    · simp [lcp, hab, begins]

theorem lcp_begins_left : ∀ s k : List Nat, begins (lcp s k) s = true
  | [], _ => rfl
  | _ :: _, [] => rfl
  | a :: as, b :: bs => by
    by_cases hab : a = b
    · subst hab
      simp [lcp, begins, lcp_begins_left as bs]
    · simp [lcp, hab, begins]

theorem lcp_drop_neq : ∀ (s k : List Nat) (a : Nat) (as : List Nat) (b : Nat)
    (bs : List Nat), s.drop (lcp s k).length = a :: as →
    k.drop (lcp s k).length = b :: bs → a ≠ b
  | [], k, a, as, b, bs => by
    intro h _
    simp at h
  | a0 :: as0, [], a, as, b, bs => by
    intro _ h
    simp [lcp] at h
  | a0 :: as0, b0 :: bs0, a, as, b, bs => by
    intro h1 h2
    by_cases hab : a0 = b0
    · subst hab
      simp only [lcp, if_pos rfl, List.length_cons, List.drop_succ_cons] at h1 h2
      exact lcp_drop_neq as0 bs0 a as b bs h1 h2
    · simp only [lcp, if_neg hab, List.length_nil, List.drop_zero] at h1 h2
      rw [List.cons.injEq] at h1 h2
      exact fun he => hab (h1.1.trans (he.trans h2.1.symm))

theorem begins_false_drop : ∀ (s k : List Nat), begins s k = false →
    ∃ a as, s.drop (lcp s k).length = a :: as
  | [], k => by
    intro h
    simp [begins] at h
  | a :: as, [] => by
    intro _
    exact ⟨a, as, by simp [lcp]⟩
  | a :: as, b :: bs => by
    intro h
    by_cases hab : a = b
    · subst hab
      simp only [begins, if_pos rfl] at h
      obtain ⟨x, xs, hx⟩ := begins_false_drop as bs h
      exact ⟨x, xs, by simp only [lcp, if_pos rfl, List.length_cons,
        List.drop_succ_cons]; exact hx⟩
    · exact ⟨a, as, by simp [lcp, hab]⟩

theorem drop_append_len : ∀ (xs k : List Nat) (n : Nat),
    (xs ++ k).drop (xs.length + n) = k.drop n
  | [], k, n => by simp
  | a :: as, k, n => by
    have : as.length + 1 + n = (as.length + n) + 1 := by omega
    simp only [List.cons_append, List.length_cons, this, List.drop_succ_cons]
    exact drop_append_len as k n

theorem get_leaf (k : List Nat) (v : Nat) : Trie.get (Trie.leaf k v) k = some v := by
  simp [Trie.leaf, Trie.get, begins_refl, List.drop_length]

theorem get_empty (k : List Nat) : Trie.get Trie.empty k = none := by
  cases k <;> simp [Trie.empty, Trie.get, begins, Children.getAt]

theorem get_prepend (xs seg : List Nat) (val : Option Nat) (cs : Children)
    (k : List Nat) :
    Trie.get (.node (xs ++ seg) val cs) (xs ++ k) = Trie.get (.node seg val cs) k := by
  simp only [Trie.get, begins_append_both]
  cases hbeg : begins seg k
  · simp
  · simp only [if_pos rfl, List.length_append]
    rw [drop_append_len]

mutual

theorem get_ins : ∀ (t : Trie) (k : List Nat) (v : Nat),
    Trie.get (Trie.ins t k v) k = some v
  | .node seg val cs, k, v => by
    cases hbeg : begins seg k with
    | true =>
      cases hdrop : k.drop seg.length with
      | nil => simp [Trie.ins, hbeg, hdrop, Trie.get]
      | cons b k' =>
        simp [Trie.ins, hbeg, hdrop, Trie.get]
        exact getAt_insAt cs b k' v
    | false =>
      obtain ⟨a, as, hsplit⟩ := begins_false_drop seg k hbeg
      cases hkdrop : k.drop (lcp seg k).length with
      | nil =>
        simp [Trie.ins, hbeg, hsplit, hkdrop, Trie.get, lcp_begins_right]
      | cons bN k' =>
        have hne : a ≠ bN := lcp_drop_neq seg k a as bN k' hsplit hkdrop
        have hb := lcp_begins_right seg k
        by_cases hlt : bN < a
        · simp [Trie.ins, hbeg, hsplit, hkdrop, Trie.get, hb, Children.twoSorted,
            hlt, Children.getAt, Trie.leaf, begins_refl, List.drop_length]
        · have hne' : ¬(bN = a) := fun h => hne h.symm
          simp [Trie.ins, hbeg, hsplit, hkdrop, Trie.get, hb, Children.twoSorted,
            hlt, Children.getAt, hne', Trie.leaf, begins_refl, List.drop_length]

theorem getAt_insAt : ∀ (cs : Children) (b : Nat) (k' : List Nat) (v : Nat),
    Children.getAt (Children.insAt cs b k' v) b k' = some v
  | .nil, b, k', v => by simp [Children.insAt, Children.getAt, get_leaf]
  | .cons b' c rest, b, k', v => by
    by_cases hbb : b = b'
    · subst hbb
      simp only [Children.insAt, if_pos rfl, Children.getAt]
      exact get_ins c k' v
    · simp only [Children.insAt, if_neg hbb]
      by_cases hlt : b < b'
      · simp [hlt, Children.getAt, get_leaf]
      · simp only [if_neg hlt, Children.getAt, if_neg hbb]
        exact getAt_insAt rest b k' v

end

theorem get_insert : ∀ (t : Trie) (k : List Nat) (v : Nat),
    Trie.get (Trie.insert t k v) k = some v
  | .node [] none .nil, k, v => get_leaf k v
  | .node (a :: s) val cs, k, v => get_ins (.node (a :: s) val cs) k v
  | .node [] (some w) cs, k, v => get_ins (.node [] (some w) cs) k v
  | .node [] none (.cons b c rest), k, v =>
    get_ins (.node [] none (.cons b c rest)) k v

end Marf

namespace Marf

theorem getAt_slotsGt_none : ∀ (cs : Children) (b : Nat) (k' : List Nat),
    Children.slotsGt cs b = true → Children.getAt cs b k' = none
  | .nil, _, _ => fun _ => rfl
  | .cons b' c rest, b, k' => by
    intro h
    simp only [Children.slotsGt, Bool.and_eq_true, decide_eq_true_eq] at h
    have hne : ¬(b = b') := Nat.ne_of_lt h.1
    simp only [Children.getAt, if_neg hne]
    exact getAt_slotsGt_none rest b k' h.2

mutual

theorem del_get : ∀ (t : Trie) (k : List Nat) (t' : Trie),
    Trie.slotsSorted t = true → Trie.del t k = some t' → Trie.get t' k = none
  | .node seg val cs, k, t' => by
    intro hs hd
    simp only [Trie.slotsSorted] at hs
    cases hbeg : begins seg k with
    | false =>
      simp only [Trie.del, hbeg, Bool.false_eq_true, if_false,
        Option.some.injEq] at hd
      subst hd
      simp [Trie.get, hbeg]
    | true =>
      cases hdrop : k.drop seg.length with
      | nil =>
        cases val with
        | none =>
          simp only [Trie.del, hbeg, if_true, hdrop, Option.some.injEq] at hd
          subst hd
          simp [Trie.get, hbeg, hdrop]
        | some w =>
          cases cs with
          | nil => simp [Trie.del, hbeg, hdrop] at hd
          | cons b c rest =>
            cases rest with
            | nil =>
              obtain ⟨cseg, cval, ccs⟩ := c
              simp only [Trie.del, hbeg, if_true, hdrop, Option.some.injEq] at hd
              subst hd
              have hk : k = seg := by
                have h := begins_append_drop seg k hbeg
                rw [hdrop, List.append_nil] at h
                exact h.symm
              subst hk
              simp [Trie.get, begins_long_false]
            | cons b2 c2 rest2 =>
              simp only [Trie.del, hbeg, if_true, hdrop, Option.some.injEq] at hd
              subst hd
              simp [Trie.get, hbeg, hdrop]
      | cons b k' =>
        have hk : seg ++ b :: k' = k := by
          have h := begins_append_drop seg k hbeg
          rw [hdrop] at h
          exact h
        simp only [Trie.del, hbeg, if_true, hdrop] at hd
        cases hcs' : Children.delAt cs b k' with
        | nil =>
          rw [hcs'] at hd
          cases val with
          | none => simp at hd
          | some w =>
            simp only [Option.isSome_some, if_true, Option.some.injEq] at hd
            subst hd
            simp [Trie.get, hbeg, hdrop, Children.getAt]
        | cons b1 c1 rest1 =>
          cases rest1 with
          | nil =>
            obtain ⟨cseg, cval, ccs⟩ := c1
            rw [hcs'] at hd
            cases val with
            | some w =>
              simp only [Option.isSome_some, if_true, Option.some.injEq] at hd
              subst hd
              have hnone := delAt_getAt cs b k' hs
              rw [hcs'] at hnone
              simp only [Trie.get, hbeg, if_true, hdrop]
              exact hnone
            | none =>
              simp only [Option.isSome_none, Bool.false_eq_true, if_false,
                Option.some.injEq] at hd
              subst hd
              rw [← hk]
              rw [get_prepend seg (b1 :: cseg) cval ccs (b :: k')]
              by_cases hb1 : b1 = b
              · subst hb1
                have hp := get_prepend [b1] cseg cval ccs k'
                simp only [List.cons_append, List.nil_append] at hp
                rw [hp]
                have hnone := delAt_getAt cs b1 k' hs
                rw [hcs'] at hnone
                simp only [Children.getAt, if_pos rfl] at hnone
                exact hnone
              · simp [Trie.get, begins, hb1]
          | cons b2 c2 rest2 =>
            rw [hcs'] at hd
            simp only [Option.some.injEq] at hd
            subst hd
            have hnone := delAt_getAt cs b k' hs
            rw [hcs'] at hnone
            simp only [Trie.get, hbeg, if_true, hdrop]
            exact hnone

theorem delAt_getAt : ∀ (cs : Children) (b : Nat) (k' : List Nat),
    Children.slotsSortedC cs = true →
    Children.getAt (Children.delAt cs b k') b k' = none
  | .nil, _, _ => fun _ => rfl
  | .cons b' c rest, b, k' => by
    intro hs
    simp only [Children.slotsSortedC, Bool.and_eq_true] at hs
    obtain ⟨⟨hc, hrest⟩, hgt⟩ := hs
    by_cases hbb : b = b'
    · subst hbb
      simp only [Children.delAt, if_pos rfl]
      cases hdel : Trie.del c k' with
      | none => exact getAt_slotsGt_none rest b k' hgt
      | some c' =>
        simp only [Children.getAt, if_pos rfl]
        exact del_get c k' c' hc hdel
    · simp only [Children.delAt, if_neg hbb, Children.getAt, if_neg hbb]
      exact delAt_getAt rest b k' hrest

end

theorem get_delete (t : Trie) (k : List Nat) (hs : Trie.slotsSorted t = true) :
    Trie.get (Trie.delete t k) k = none := by
  unfold Trie.delete
  cases hd : Trie.del t k with
  | none => simp [get_empty]
  | some t' => simpa using del_get t k t' hs hd

end Marf

namespace Marf

theorem slotsGt_of_lt : ∀ (cs : Children) (lo hi : Nat), lo < hi →
    Children.slotsGt cs hi = true → Children.slotsGt cs lo = true
  | .nil, _, _ => fun _ _ => rfl
  | .cons b' c rest, lo, hi => by
    intro hlt h
    simp only [Children.slotsGt, Bool.and_eq_true, decide_eq_true_eq] at h ⊢
    exact ⟨by omega, slotsGt_of_lt rest lo hi hlt h.2⟩

theorem slotsGt_insAt : ∀ (cs : Children) (b : Nat) (k' : List Nat) (v : Nat)
    (lo : Nat), Children.slotsGt cs lo = true → lo < b →
    Children.slotsGt (Children.insAt cs b k' v) lo = true
  | .nil, b, k', v, lo => by
    intro _ hb
    simp [Children.insAt, Children.slotsGt, hb]
  | .cons b' c rest, b, k', v, lo => by
    intro h hb
    simp only [Children.slotsGt, Bool.and_eq_true, decide_eq_true_eq] at h
    by_cases hbb : b = b'
    · subst hbb
      simp [Children.insAt, Children.slotsGt, h.1, h.2]
    · simp only [Children.insAt, if_neg hbb]
      by_cases hlt : b < b'
      · simp [hlt, Children.slotsGt, hb, h.1, h.2]
      · simp [hlt, Children.slotsGt, h.1,
          slotsGt_insAt rest b k' v lo h.2 hb]

theorem slotsGt_delAt : ∀ (cs : Children) (b : Nat) (k' : List Nat) (lo : Nat),
    Children.slotsGt cs lo = true →
    Children.slotsGt (Children.delAt cs b k') lo = true
  | .nil, _, _, _ => fun _ => rfl
  | .cons b' c rest, b, k', lo => by
    intro h
    simp only [Children.slotsGt, Bool.and_eq_true, decide_eq_true_eq] at h
    by_cases hbb : b = b'
    · subst hbb
      simp only [Children.delAt, if_pos rfl]
      cases hdel : Trie.del c k' with
      | none => exact h.2
      | some c' => simp [Children.slotsGt, h.1, h.2]
    · simp [Children.delAt, hbb, Children.slotsGt, h.1,
        slotsGt_delAt rest b k' lo h.2]

theorem count_insAt_ge : ∀ (cs : Children) (b : Nat) (k' : List Nat) (v : Nat),
    Children.count cs ≤ Children.count (Children.insAt cs b k' v)
  | .nil, _, _, _ => by simp [Children.insAt, Children.count]
  | .cons b' c rest, b, k', v => by
    by_cases hbb : b = b'
    · subst hbb
      simp [Children.insAt, Children.count]
    · simp only [Children.insAt, if_neg hbb]
      by_cases hlt : b < b'
      · simp [hlt, Children.count]
      · simp only [if_neg hlt, Children.count]
        have := count_insAt_ge rest b k' v
        omega

theorem count_twoSorted (b1 : Nat) (c1 : Trie) (b2 : Nat) (c2 : Trie) :
    Children.count (Children.twoSorted b1 c1 b2 c2) = 2 := by
  unfold Children.twoSorted
  by_cases hlt : b2 < b1 <;> simp [hlt, Children.count]

theorem wfB_leaf (k : List Nat) (v : Nat) : Trie.wfB (Trie.leaf k v) = true := by
  simp [Trie.leaf, Trie.wfB, Children.wfB]

theorem wfB_twoSorted (b1 : Nat) (c1 : Trie) (b2 : Nat) (c2 : Trie)
    (hne : b1 ≠ b2) (h1 : Trie.wfB c1 = true) (h2 : Trie.wfB c2 = true) :
    Children.wfB (Children.twoSorted b1 c1 b2 c2) = true := by
  unfold Children.twoSorted
  by_cases hlt : b2 < b1
  · simp [hlt, Children.wfB, Children.slotsGt, h1, h2]
  · have hlt' : b1 < b2 := by omega
    simp [hlt, Children.wfB, Children.slotsGt, h1, h2, hlt']

mutual

theorem wfB_ins : ∀ (t : Trie) (k : List Nat) (v : Nat),
    Trie.wfB t = true → Trie.wfB (Trie.ins t k v) = true
  | .node seg val cs, k, v => by
    intro hw
    simp only [Trie.wfB, Bool.and_eq_true] at hw
    obtain ⟨hloc, hcw⟩ := hw
    cases hbeg : begins seg k with
    | true =>
      cases hdrop : k.drop seg.length with
      | nil =>
        have heq : Trie.ins (.node seg val cs) k v = .node seg (some v) cs := by
          simp [Trie.ins, hbeg, hdrop]
        rw [heq]
        simp [Trie.wfB, hcw]
      | cons b k' =>
        have heq : Trie.ins (.node seg val cs) k v =
            .node seg val (Children.insAt cs b k' v) := by
          simp [Trie.ins, hbeg, hdrop]
        rw [heq]
        simp only [Trie.wfB, Bool.and_eq_true]
        refine ⟨?_, wfB_insAt cs b k' v hcw⟩
        cases hval : val with
        | some w => simp
        | none =>
          rw [hval] at hloc
          simp only [Option.isSome_none, Bool.false_or, decide_eq_true_eq] at hloc
          have := count_insAt_ge cs b k' v
          simp only [Option.isSome_none, Bool.false_or, decide_eq_true_eq]
          omega
    | false =>
      obtain ⟨a, as, hsplit⟩ := begins_false_drop seg k hbeg
      have hinner : Trie.wfB (.node as val cs) = true := by
        simp only [Trie.wfB, Bool.and_eq_true]
        exact ⟨hloc, hcw⟩
      cases hkdrop : k.drop (lcp seg k).length with
      | nil =>
        have heq : Trie.ins (.node seg val cs) k v =
            .node (lcp seg k) (some v) (.cons a (.node as val cs) .nil) := by
          simp [Trie.ins, hbeg, hsplit, hkdrop]
        rw [heq]
        simp [Trie.wfB, Children.wfB, Children.slotsGt]
        exact ⟨by simpa using hloc, hcw⟩
      | cons bN k' =>
        have hne : a ≠ bN := lcp_drop_neq seg k a as bN k' hsplit hkdrop
        have heq : Trie.ins (.node seg val cs) k v =
            .node (lcp seg k) none
              (Children.twoSorted a (.node as val cs) bN (Trie.leaf k' v)) := by
          simp [Trie.ins, hbeg, hsplit, hkdrop]
        rw [heq]
        simp only [Trie.wfB, Bool.and_eq_true]
        constructor
        · simp [count_twoSorted]
        · exact wfB_twoSorted a (.node as val cs) bN (Trie.leaf k' v) hne hinner
            (wfB_leaf k' v)

theorem wfB_insAt : ∀ (cs : Children) (b : Nat) (k' : List Nat) (v : Nat),
    Children.wfB cs = true → Children.wfB (Children.insAt cs b k' v) = true
  | .nil, b, k', v => by
    intro _
    simp [Children.insAt, Children.wfB, wfB_leaf, Children.slotsGt]
  | .cons b' c rest, b, k', v => by
    intro hw
    simp only [Children.wfB, Bool.and_eq_true] at hw
    obtain ⟨⟨hc, hrest⟩, hgt⟩ := hw
    by_cases hbb : b = b'
    · subst hbb
      simp only [Children.insAt, if_pos rfl]
      simp [Children.wfB, wfB_ins c k' v hc, hrest, hgt]
    · simp only [Children.insAt, if_neg hbb]
      by_cases hlt : b < b'
      · simp only [if_pos hlt]
        simp only [Children.wfB, Bool.and_eq_true]
        refine ⟨⟨wfB_leaf k' v, ⟨hc, hrest⟩, hgt⟩, ?_⟩
        simp only [Children.slotsGt, Bool.and_eq_true, decide_eq_true_eq]
        exact ⟨hlt, slotsGt_of_lt rest b b' hlt hgt⟩
      · simp only [if_neg hlt]
        have hgt' : b' < b := by omega
        simp [Children.wfB, hc, wfB_insAt rest b k' v hrest,
          slotsGt_insAt rest b k' v b' hgt hgt']

end

end Marf

namespace Marf

theorem wfRoot_ins_aux (seg : List Nat) (val : Option Nat) (cs : Children)
    (k : List Nat) (v : Nat)
    (hcw : Children.wfB cs = true)
    (h2 : val.isSome = true ∨ Children.count cs ≠ 1)
    (hne : val.isSome = true ∨ 1 ≤ Children.count cs) :
    Trie.wfRoot (Trie.ins (.node seg val cs) k v) = true := by
  cases hbeg : begins seg k with
  | true =>
    cases hdrop : k.drop seg.length with
    | nil =>
      have heq : Trie.ins (.node seg val cs) k v = .node seg (some v) cs := by
        simp [Trie.ins, hbeg, hdrop]
      rw [heq]
      simp [Trie.wfRoot, hcw]
    | cons b k' =>
      have heq : Trie.ins (.node seg val cs) k v =
          .node seg val (Children.insAt cs b k' v) := by
        simp [Trie.ins, hbeg, hdrop]
      rw [heq]
      simp only [Trie.wfRoot, Bool.and_eq_true]
      refine ⟨⟨wfB_insAt cs b k' v hcw, ?_⟩, ?_⟩
      · cases hval : val with
        | some w => simp
        | none =>
          rw [hval] at h2 hne
          simp only [Option.isSome_none, Bool.false_eq_true, false_or] at h2 hne
          have := count_insAt_ge cs b k' v
          simp only [Option.isSome_none, Bool.false_or, decide_eq_true_eq]
          omega
      · cases hval : val with
        | some w => simp
        | none =>
          rw [hval] at hne
          simp only [Option.isSome_none, Bool.false_eq_true, false_or] at hne
          have := count_insAt_ge cs b k' v
          simp only [Option.isSome_none, Bool.false_or, Bool.or_eq_true,
            decide_eq_true_eq]
          exact Or.inl (by omega)
  | false =>
    obtain ⟨a, as, hsplit⟩ := begins_false_drop seg k hbeg
    have hinner : Trie.wfB (.node as val cs) = true := by
      simp only [Trie.wfB, Bool.and_eq_true]
      refine ⟨?_, hcw⟩
      cases hval : val with
      | some w => simp
      | none =>
        rw [hval] at h2 hne
        simp only [Option.isSome_none, Bool.false_eq_true, false_or] at h2 hne
        simp only [Option.isSome_none, Bool.false_or, decide_eq_true_eq]
        omega
    cases hkdrop : k.drop (lcp seg k).length with
    | nil =>
      have heq : Trie.ins (.node seg val cs) k v =
          .node (lcp seg k) (some v) (.cons a (.node as val cs) .nil) := by
        simp [Trie.ins, hbeg, hsplit, hkdrop]
      rw [heq]
      simp [Trie.wfRoot, Children.wfB, Children.slotsGt, hinner]
    | cons bN k' =>
      have hne' : a ≠ bN := lcp_drop_neq seg k a as bN k' hsplit hkdrop
      have heq : Trie.ins (.node seg val cs) k v =
          .node (lcp seg k) none
            (Children.twoSorted a (.node as val cs) bN (Trie.leaf k' v)) := by
        simp [Trie.ins, hbeg, hsplit, hkdrop]
      rw [heq]
      simp only [Trie.wfRoot, Bool.and_eq_true]
      refine ⟨⟨wfB_twoSorted a (.node as val cs) bN (Trie.leaf k' v) hne' hinner
        (wfB_leaf k' v), ?_⟩, ?_⟩
      · simp [count_twoSorted]
      · simp [count_twoSorted]

theorem wfRoot_insert : ∀ (t : Trie) (k : List Nat) (v : Nat),
    Trie.wfRoot t = true → Trie.wfRoot (Trie.insert t k v) = true
  | .node [] none .nil, k, v => by
    intro _
    show Trie.wfRoot (Trie.leaf k v) = true
    simp [Trie.leaf, Trie.wfRoot, Children.wfB]
  | .node (a :: s) val cs, k, v => by
    intro hw
    simp only [Trie.wfRoot, Bool.and_eq_true] at hw
    obtain ⟨⟨hcw, h2⟩, h3⟩ := hw
    show Trie.wfRoot (Trie.ins (.node (a :: s) val cs) k v) = true
    refine wfRoot_ins_aux (a :: s) val cs k v hcw (by simpa using h2) ?_
    simpa using h3
  | .node [] (some w) cs, k, v => by
    intro hw
    simp only [Trie.wfRoot, Bool.and_eq_true] at hw
    show Trie.wfRoot (Trie.ins (.node [] (some w) cs) k v) = true
    exact wfRoot_ins_aux [] (some w) cs k v hw.1.1 (Or.inl rfl) (Or.inl rfl)
  | .node [] none (.cons b c rest), k, v => by
    intro hw
    simp only [Trie.wfRoot, Bool.and_eq_true] at hw
    obtain ⟨⟨hcw, h2⟩, -⟩ := hw
    show Trie.wfRoot (Trie.ins (.node [] none (.cons b c rest)) k v) = true
    refine wfRoot_ins_aux [] none (.cons b c rest) k v hcw (by simpa using h2) ?_
    exact Or.inr (by simp [Children.count])

end Marf

namespace Marf

mutual

theorem wfB_del : ∀ (t : Trie) (k : List Nat) (t' : Trie),
    Trie.wfB t = true → Trie.del t k = some t' → Trie.wfB t' = true
  | .node seg val cs, k, t' => by
    intro hw hd
    simp only [Trie.wfB, Bool.and_eq_true] at hw
    obtain ⟨hloc, hcw⟩ := hw
    cases hbeg : begins seg k with
    | false =>
      simp only [Trie.del, hbeg, Bool.false_eq_true, if_false,
        Option.some.injEq] at hd
      subst hd
      simp only [Trie.wfB, Bool.and_eq_true]
      exact ⟨hloc, hcw⟩
    | true =>
      cases hdrop : k.drop seg.length with
      | nil =>
        cases val with
        | none =>
          simp only [Trie.del, hbeg, if_true, hdrop, Option.some.injEq] at hd
          subst hd
          simp only [Trie.wfB, Bool.and_eq_true]
          exact ⟨hloc, hcw⟩
        | some w =>
          cases cs with
          | nil => simp [Trie.del, hbeg, hdrop] at hd
          | cons b c rest =>
            cases rest with
            | nil =>
              obtain ⟨cseg, cval, ccs⟩ := c
              simp only [Trie.del, hbeg, if_true, hdrop, Option.some.injEq] at hd
              subst hd
              simp only [Children.wfB, Bool.and_eq_true] at hcw
              obtain ⟨⟨hcwf, -⟩, -⟩ := hcw
              simp only [Trie.wfB, Bool.and_eq_true] at hcwf ⊢
              exact hcwf
            | cons b2 c2 rest2 =>
              simp only [Trie.del, hbeg, if_true, hdrop, Option.some.injEq] at hd
              subst hd
              simp only [Trie.wfB, Bool.and_eq_true]
              refine ⟨?_, hcw⟩
              simp only [Option.isSome_none, Bool.false_or, decide_eq_true_eq,
                Children.count]
              omega
      | cons b k' =>
        simp only [Trie.del, hbeg, if_true, hdrop] at hd
        have hcs'w : Children.wfB (Children.delAt cs b k') = true :=
          wfB_delAt cs b k' hcw
        cases hcs' : Children.delAt cs b k' with
        | nil =>
          rw [hcs'] at hd
          cases val with
          | none => simp at hd
          | some w =>
            simp only [Option.isSome_some, if_true, Option.some.injEq] at hd
            subst hd
            simp [Trie.wfB, Children.wfB]
        | cons b1 c1 rest1 =>
          cases rest1 with
          | nil =>
            obtain ⟨cseg, cval, ccs⟩ := c1
            rw [hcs'] at hd hcs'w
            simp only [Children.wfB, Bool.and_eq_true] at hcs'w
            obtain ⟨⟨hc1, -⟩, -⟩ := hcs'w
            cases val with
            | some w =>
              simp only [Option.isSome_some, if_true, Option.some.injEq] at hd
              subst hd
              simp only [Trie.wfB, Bool.and_eq_true]
              refine ⟨by simp, ?_⟩
              simp only [Children.wfB, Bool.and_eq_true]
              exact ⟨⟨hc1, trivial⟩, rfl⟩
            | none =>
              simp only [Option.isSome_none, Bool.false_eq_true, if_false,
                Option.some.injEq] at hd
              subst hd
              simp only [Trie.wfB, Bool.and_eq_true] at hc1 ⊢
              exact hc1
          | cons b2 c2 rest2 =>
            rw [hcs'] at hd hcs'w
            simp only [Option.some.injEq] at hd
            subst hd
            simp only [Trie.wfB, Bool.and_eq_true]
            refine ⟨?_, hcs'w⟩
            cases val with
            | some w => simp
            | none =>
              simp only [Option.isSome_none, Bool.false_or, decide_eq_true_eq,
                Children.count]
              omega

theorem wfB_delAt : ∀ (cs : Children) (b : Nat) (k' : List Nat),
    Children.wfB cs = true → Children.wfB (Children.delAt cs b k') = true
  | .nil, _, _ => fun _ => rfl
  | .cons b' c rest, b, k' => by
    intro hw
    simp only [Children.wfB, Bool.and_eq_true] at hw
    obtain ⟨⟨hc, hrest⟩, hgt⟩ := hw
    by_cases hbb : b = b'
    · subst hbb
      simp only [Children.delAt, if_pos rfl]
      cases hdel : Trie.del c k' with
      | none => exact hrest
      | some c' =>
        simp only [Children.wfB, Bool.and_eq_true]
        exact ⟨⟨wfB_del c k' c' hc hdel, hrest⟩, hgt⟩
    · simp only [Children.delAt, if_neg hbb]
      simp only [Children.wfB, Bool.and_eq_true]
      exact ⟨⟨hc, wfB_delAt rest b k' hrest⟩, slotsGt_delAt rest b k' b' hgt⟩

end

theorem wfRoot_empty : Trie.wfRoot Trie.empty = true := rfl

theorem merged_wfRoot (pre cseg : List Nat) (cval : Option Nat) (ccs : Children)
    (h : Trie.wfB (.node cseg cval ccs) = true) :
    Trie.wfRoot (.node pre cval ccs) = true := by
  simp only [Trie.wfB, Bool.and_eq_true] at h
  obtain ⟨hloc, hcw⟩ := h
  simp only [Trie.wfRoot, Bool.and_eq_true]
  refine ⟨⟨hcw, ?_⟩, ?_⟩
  · cases hcval : cval with
    | some w => simp
    | none =>
      rw [hcval] at hloc
      simp only [Option.isSome_none, Bool.false_or, decide_eq_true_eq] at hloc
      simp only [Option.isSome_none, Bool.false_or, decide_eq_true_eq]
      omega
  · cases hcval : cval with
    | some w => simp
    | none =>
      rw [hcval] at hloc
      simp only [Option.isSome_none, Bool.false_or, decide_eq_true_eq] at hloc
      simp only [Option.isSome_none, Bool.false_or, Bool.or_eq_true,
        decide_eq_true_eq]
      exact Or.inl (by omega)

theorem wfRoot_delete (t : Trie) (k : List Nat) (hw : Trie.wfRoot t = true) :
    Trie.wfRoot (Trie.delete t k) = true := by
  obtain ⟨seg, val, cs⟩ := t
  simp only [Trie.wfRoot, Bool.and_eq_true] at hw
  obtain ⟨⟨hcw, h2⟩, h3⟩ := hw
  unfold Trie.delete
  cases hd : Trie.del (.node seg val cs) k with
  | none => simpa using wfRoot_empty
  | some t' =>
    simp only [Option.getD_some]
    cases hbeg : begins seg k with
    | false =>
      simp only [Trie.del, hbeg, Bool.false_eq_true, if_false,
        Option.some.injEq] at hd
      subst hd
      simp only [Trie.wfRoot, Bool.and_eq_true]
      exact ⟨⟨hcw, h2⟩, h3⟩
    | true =>
      cases hdrop : k.drop seg.length with
      | nil =>
        cases val with
        | none =>
          simp only [Trie.del, hbeg, if_true, hdrop, Option.some.injEq] at hd
          subst hd
          simp only [Trie.wfRoot, Bool.and_eq_true]
          exact ⟨⟨hcw, h2⟩, h3⟩
        | some w =>
          cases cs with
          | nil => simp [Trie.del, hbeg, hdrop] at hd
          | cons b c rest =>
            cases rest with
            | nil =>
              obtain ⟨cseg, cval, ccs⟩ := c
              simp only [Trie.del, hbeg, if_true, hdrop, Option.some.injEq] at hd
              subst hd
              simp only [Children.wfB, Bool.and_eq_true] at hcw
              exact merged_wfRoot (seg ++ b :: cseg) cseg cval ccs hcw.1.1
            | cons b2 c2 rest2 =>
              simp only [Trie.del, hbeg, if_true, hdrop, Option.some.injEq] at hd
              subst hd
              simp only [Trie.wfRoot, Bool.and_eq_true]
              refine ⟨⟨hcw, ?_⟩, ?_⟩
              · simp only [Option.isSome_none, Bool.false_or, decide_eq_true_eq,
                  Children.count]
                omega
              · simp only [Option.isSome_none, Bool.false_or, Bool.or_eq_true,
                  decide_eq_true_eq, Children.count]
                exact Or.inl (by omega)
      | cons b k' =>
        simp only [Trie.del, hbeg, if_true, hdrop] at hd
        have hcs'w : Children.wfB (Children.delAt cs b k') = true :=
          wfB_delAt cs b k' hcw
        cases hcs' : Children.delAt cs b k' with
        | nil =>
          rw [hcs'] at hd
          cases val with
          | none => simp at hd
          | some w =>
            simp only [Option.isSome_some, if_true, Option.some.injEq] at hd
            subst hd
            simp [Trie.wfRoot, Children.wfB]
        | cons b1 c1 rest1 =>
          cases rest1 with
          | nil =>
            obtain ⟨cseg, cval, ccs⟩ := c1
            rw [hcs'] at hd hcs'w
            simp only [Children.wfB, Bool.and_eq_true] at hcs'w
            obtain ⟨⟨hc1, -⟩, -⟩ := hcs'w
            cases val with
            | some w =>
              simp only [Option.isSome_some, if_true, Option.some.injEq] at hd
              subst hd
              simp only [Trie.wfRoot, Bool.and_eq_true]
              refine ⟨⟨?_, by simp⟩, by simp⟩
              simp only [Children.wfB, Bool.and_eq_true]
              exact ⟨⟨hc1, trivial⟩, rfl⟩
            | none =>
              simp only [Option.isSome_none, Bool.false_eq_true, if_false,
                Option.some.injEq] at hd
              subst hd
              exact merged_wfRoot (seg ++ b1 :: cseg) cseg cval ccs hc1
          | cons b2 c2 rest2 =>
            rw [hcs'] at hd hcs'w
            simp only [Option.some.injEq] at hd
            subst hd
            simp only [Trie.wfRoot, Bool.and_eq_true]
            refine ⟨⟨hcs'w, ?_⟩, ?_⟩
            · cases val with
              | some w => simp
              | none =>
                simp only [Option.isSome_none, Bool.false_or, decide_eq_true_eq,
                  Children.count]
                omega
            · cases val with
              | some w => simp
              | none =>
                simp only [Option.isSome_none, Bool.false_or, Bool.or_eq_true,
                  decide_eq_true_eq, Children.count]
                exact Or.inl (by omega)

end Marf

namespace Marf

mutual

theorem wfB_slotsSorted : ∀ t : Trie, Trie.wfB t = true → Trie.slotsSorted t = true
  | .node seg val cs => by
    intro h
    simp only [Trie.wfB, Bool.and_eq_true] at h
    simp only [Trie.slotsSorted]
    exact wfB_slotsSortedC cs h.2

theorem wfB_slotsSortedC : ∀ cs : Children,
    Children.wfB cs = true → Children.slotsSortedC cs = true
  | .nil => fun _ => rfl
  | .cons b c rest => by
    intro h
    simp only [Children.wfB, Bool.and_eq_true] at h
    obtain ⟨⟨hc, hrest⟩, hgt⟩ := h
    simp only [Children.slotsSortedC, Bool.and_eq_true]
    exact ⟨⟨wfB_slotsSorted c hc, wfB_slotsSortedC rest hrest⟩, hgt⟩

end

theorem wfRoot_slotsSorted (t : Trie) (h : Trie.wfRoot t = true) :
    Trie.slotsSorted t = true := by
  obtain ⟨seg, val, cs⟩ := t
  simp only [Trie.wfRoot, Bool.and_eq_true] at h
  simp only [Trie.slotsSorted]
  exact wfB_slotsSortedC cs h.1.1

mutual

theorem wfB_noSingle : ∀ t : Trie, Trie.wfB t = true → Trie.noSingle t = true
  | .node seg val cs => by
    intro h
    simp only [Trie.wfB, Bool.and_eq_true] at h
    obtain ⟨hloc, hcw⟩ := h
    simp only [Trie.noSingle, Bool.and_eq_true]
    refine ⟨?_, wfB_noSingleC cs hcw⟩
    cases hval : val with
    | some w => simp
    | none =>
      rw [hval] at hloc
      simp only [Option.isSome_none, Bool.false_or, decide_eq_true_eq] at hloc
      simp only [Option.isSome_none, Bool.false_or, decide_eq_true_eq]
      omega

theorem wfB_noSingleC : ∀ cs : Children,
    Children.wfB cs = true → Children.noSingleC cs = true
  | .nil => fun _ => rfl
  | .cons b c rest => by
    intro h
    simp only [Children.wfB, Bool.and_eq_true] at h
    obtain ⟨⟨hc, hrest⟩, -⟩ := h
    simp only [Children.noSingleC, Bool.and_eq_true]
    exact ⟨wfB_noSingle c hc, wfB_noSingleC rest hrest⟩

end

theorem wfRoot_noSingle (t : Trie) (h : Trie.wfRoot t = true) :
    Trie.noSingle t = true := by
  obtain ⟨seg, val, cs⟩ := t
  simp only [Trie.wfRoot, Bool.and_eq_true] at h
  obtain ⟨⟨hcw, h2⟩, -⟩ := h
  simp only [Trie.noSingle, Bool.and_eq_true]
  exact ⟨h2, wfB_noSingleC cs hcw⟩

theorem wfRoot_applyTxOp (tx : TrieStorageTransaction) (op : TxOp)
    (h : Trie.wfRoot tx.uncommitted = true) :
    Trie.wfRoot (applyTxOp tx op).uncommitted = true := by
  cases op with
  | insertOp k v => exact wfRoot_insert tx.uncommitted k v h
  | deleteOp k => exact wfRoot_delete tx.uncommitted k h

theorem wfRoot_applyTxOps : ∀ (ops : List TxOp) (tx : TrieStorageTransaction),
    Trie.wfRoot tx.uncommitted = true →
    Trie.wfRoot (applyTxOps tx ops).uncommitted = true
  | [], tx => fun h => h
  | op :: ops, tx => fun h =>
    wfRoot_applyTxOps ops (applyTxOp tx op) (wfRoot_applyTxOp tx op h)

theorem lookup_wfStore : ∀ (idx : List (Nat × Trie)) (p : Nat) (t : Trie),
    idx.all (fun q => Trie.wfRoot q.2) = true → lookupBlock idx p = some t →
    Trie.wfRoot t = true
  | [], p, t => by
    intro _ h
    simp [lookupBlock] at h
  | (b, u) :: rest, p, t => by
    intro hall h
    simp only [List.all_cons, Bool.and_eq_true] at hall
    by_cases hpb : p = b
    · simp only [lookupBlock, if_pos hpb, Option.some.injEq] at h
      subst h
      exact hall.1
    · simp only [lookupBlock, if_neg hpb] at h
      exact lookup_wfStore rest p t hall.2 h

theorem beginBlock_ok (st st' : TrieFileStorage) (parent : Nat)
    (tx : TrieStorageTransaction)
    (h : beginBlock st parent = (st', .ok tx)) :
    lookupBlock st.index parent = some tx.uncommitted ∧ tx.parent = parent ∧
    st'.index = st.index ∧ st'.writerActive = true ∧ st.writerActive = false := by
  unfold beginBlock at h
  cases hl : lookupBlock st.index parent with
  | none =>
    rw [hl] at h
    simp at h
  | some t =>
    rw [hl] at h
    cases hwa : st.writerActive with
    | true =>
      rw [hwa] at h
      simp at h
    | false =>
      rw [hwa] at h
      simp only [Bool.false_eq_true, if_false, Prod.mk.injEq,
        Except.ok.injEq] at h
      obtain ⟨hst, htx⟩ := h
      subst htx
      subst hst
      exact ⟨rfl, rfl, rfl, rfl, rfl⟩

end Marf

namespace Marf

theorem sysRun_store : ∀ (l : List TxOp) (sys : MarfSystem),
    (sysRun sys l).store = sys.store
  | [], _ => rfl
  | op :: l, sys => (sysRun_store l (sysStep sys op)).trans rfl

theorem applyTxOps_uncongr : ∀ (l : List TxOp) (a b : TrieStorageTransaction),
    a.uncommitted = b.uncommitted →
    (applyTxOps a l).uncommitted = (applyTxOps b l).uncommitted
  | [], _, _ => fun h => h
  | op :: l, a, b => fun h => by
    have hstep : (applyTxOp a op).uncommitted = (applyTxOp b op).uncommitted := by
      cases op with
      | insertOp k v => simp [applyTxOp, txInsert, h]
      | deleteOp k => simp [applyTxOp, txDelete, h]
    exact applyTxOps_uncongr l (applyTxOp a op) (applyTxOp b op) hstep

/-- C1: within one open transaction, after any earlier operations on the same
connection, a read immediately after `insert(key, v)` returns `Some v` and a
read immediately after `delete(key)` returns `None`, all before any commit. -/
theorem read_your_writes (st st' : TrieFileStorage) (parent : Nat)
    (tx₀ : TrieStorageTransaction) (ops : List TxOp) (k : List Nat) (v : Nat)
    (hwf : wfStore st = true)
    (hb : beginBlock st parent = (st', .ok tx₀)) :
    txGet (txInsert (applyTxOps tx₀ ops) k v) k = some v ∧
    txGet (txDelete (applyTxOps tx₀ ops) k) k = none := by
  obtain ⟨hl, -, -, -, -⟩ := beginBlock_ok st st' parent tx₀ hb
  have hw0 : Trie.wfRoot tx₀.uncommitted = true :=
    lookup_wfStore st.index parent tx₀.uncommitted hwf hl
  have hwn : Trie.wfRoot (applyTxOps tx₀ ops).uncommitted = true :=
    wfRoot_applyTxOps ops tx₀ hw0
  constructor
  · exact get_insert (applyTxOps tx₀ ops).uncommitted k v
  · exact get_delete (applyTxOps tx₀ ops).uncommitted k (wfRoot_slotsSorted _ hwn)

/-- Witness for C1 on a concrete store, parent and operation sequence. -/
theorem read_your_writes_witness :
    txGet (txInsert (applyTxOps ⟨7, Trie.empty⟩ [TxOp.insertOp [1, 2] 5]) [3] 9)
      [3] = some 9 ∧
    txGet (txDelete (applyTxOps ⟨7, Trie.empty⟩ [TxOp.insertOp [1, 2] 5]) [3])
      [3] = none :=
  read_your_writes ⟨[(7, Trie.empty)], false⟩ ⟨[(7, Trie.empty)], true⟩ 7
    ⟨7, Trie.empty⟩ [TxOp.insertOp [1, 2] 5] [3] 9 rfl rfl

/-- C2: along every step of an open transaction (every step-closed run of a
step-list that extends to the full operation list, covering abandonment),
the store's block index is untouched, so no uncommitted write is observable
through `open_read` or any other connection. -/
theorem isolation_until_commit (st st' : TrieFileStorage) (parent : Nat)
    (tx₀ : TrieStorageTransaction) (ops pre : List TxOp) (blockId : Nat)
    (hb : beginBlock st parent = (st', .ok tx₀))
    (hpre : ∃ suf, pre ++ suf = ops) :
    (sysRun ⟨st', some tx₀⟩ pre).store.index = st.index ∧
    openRead (sysRun ⟨st', some tx₀⟩ pre).store blockId = openRead st blockId := by
  obtain ⟨-, -, hidx, -, -⟩ := beginBlock_ok st st' parent tx₀ hb
  have h1 : (sysRun ⟨st', some tx₀⟩ pre).store.index = st.index := by
    rw [sysRun_store]
    exact hidx
  refine ⟨h1, ?_⟩
  unfold openRead
  rw [h1]

/-- Witness for C2 mid-run of a two-operation transaction. -/
theorem isolation_until_commit_witness :
    (sysRun ⟨⟨[(0, Trie.empty)], true⟩, some ⟨0, Trie.empty⟩⟩
      [TxOp.insertOp [1] 2]).store.index = [(0, Trie.empty)] ∧
    openRead (sysRun ⟨⟨[(0, Trie.empty)], true⟩, some ⟨0, Trie.empty⟩⟩
      [TxOp.insertOp [1] 2]).store 0 =
      openRead ⟨[(0, Trie.empty)], false⟩ 0 :=
  isolation_until_commit ⟨[(0, Trie.empty)], false⟩ ⟨[(0, Trie.empty)], true⟩ 0
    ⟨0, Trie.empty⟩ [TxOp.insertOp [1] 2, TxOp.deleteOp [1]] [TxOp.insertOp [1] 2]
    0 rfl ⟨[TxOp.deleteOp [1]], rfl⟩

/-- C3: rolling back discards the uncommitted state: the block index (hence
the parent block's state) is unchanged, a fresh `begin_block` on the same
parent succeeds with the identical starting transaction, and replaying the
identical operations commits to the identical root hash. -/
theorem rollback_purity (st st' : TrieFileStorage) (parent : Nat)
    (tx₀ : TrieStorageTransaction) (ops : List TxOp) (newId : Nat)
    (hb : beginBlock st parent = (st', .ok tx₀)) :
    (rollback st' (applyTxOps tx₀ ops)).index = st.index ∧
    beginBlock (rollback st' (applyTxOps tx₀ ops)) parent =
      ({ rollback st' (applyTxOps tx₀ ops) with writerActive := true }, .ok tx₀) ∧
    (commit { rollback st' (applyTxOps tx₀ ops) with writerActive := true }
        (applyTxOps tx₀ ops) newId).2 =
      (commit st' (applyTxOps tx₀ ops) newId).2 := by
  obtain ⟨hl, hp, hidx, -, -⟩ := beginBlock_ok st st' parent tx₀ hb
  refine ⟨hidx, ?_, rfl⟩
  have hlook : lookupBlock (rollback st' (applyTxOps tx₀ ops)).index parent =
      some tx₀.uncommitted := by
    show lookupBlock st'.index parent = some tx₀.uncommitted
    rw [hidx]
    exact hl
  unfold beginBlock
  rw [hlook]
  have hwa : (rollback st' (applyTxOps tx₀ ops)).writerActive = false := rfl
  rw [hwa]
  simp only [Bool.false_eq_true, if_false, Prod.mk.injEq, Except.ok.injEq]
  exact ⟨trivial, by rw [← hp]⟩

/-- Witness for C3 at a concrete parent and operation list. -/
theorem rollback_purity_witness :
    (rollback ⟨[(4, Trie.empty)], true⟩
      (applyTxOps ⟨4, Trie.empty⟩ [TxOp.insertOp [8] 1])).index =
      [(4, Trie.empty)] ∧
    beginBlock (rollback ⟨[(4, Trie.empty)], true⟩
        (applyTxOps ⟨4, Trie.empty⟩ [TxOp.insertOp [8] 1])) 4 =
      ({ rollback ⟨[(4, Trie.empty)], true⟩
          (applyTxOps ⟨4, Trie.empty⟩ [TxOp.insertOp [8] 1]) with
          writerActive := true }, .ok ⟨4, Trie.empty⟩) ∧
    (commit { rollback ⟨[(4, Trie.empty)], true⟩
          (applyTxOps ⟨4, Trie.empty⟩ [TxOp.insertOp [8] 1]) with
          writerActive := true }
        (applyTxOps ⟨4, Trie.empty⟩ [TxOp.insertOp [8] 1]) 5).2 =
      (commit ⟨[(4, Trie.empty)], true⟩
        (applyTxOps ⟨4, Trie.empty⟩ [TxOp.insertOp [8] 1]) 5).2 :=
  rollback_purity ⟨[(4, Trie.empty)], false⟩ ⟨[(4, Trie.empty)], true⟩ 4
    ⟨4, Trie.empty⟩ [TxOp.insertOp [8] 1] 5 rfl

/-- C4: committing the same operation sequence from the same parent trie in
two separate storage instances yields the same root hash; and a node's hash
is a function of its path segment, ordered child (slot, hash) pairs, and
leaf value only. -/
theorem hash_determinism (st1 st2 st1' st2' : TrieFileStorage) (parent : Nat)
    (t : Trie) (tx1 tx2 : TrieStorageTransaction) (ops : List TxOp)
    (id1 id2 : Nat)
    (h1 : beginBlock st1 parent = (st1', .ok tx1))
    (h2 : beginBlock st2 parent = (st2', .ok tx2))
    (hl1 : lookupBlock st1.index parent = some t)
    (hl2 : lookupBlock st2.index parent = some t) :
    (commit st1' (applyTxOps tx1 ops) id1).2 =
      (commit st2' (applyTxOps tx2 ops) id2).2 ∧
    (∀ (seg : List Nat) (val : Option Nat) (cs cs' : Children),
      Children.slotHashes cs = Children.slotHashes cs' →
      Trie.hash (.node seg val cs) = Trie.hash (.node seg val cs')) := by
  obtain ⟨hl1', -, -, -, -⟩ := beginBlock_ok st1 st1' parent tx1 h1
  obtain ⟨hl2', -, -, -, -⟩ := beginBlock_ok st2 st2' parent tx2 h2
  constructor
  · have e1 : tx1.uncommitted = t := by
      have := hl1'.symm.trans hl1
      injection this
    have e2 : tx2.uncommitted = t := by
      have := hl2'.symm.trans hl2
      injection this
    show Trie.hash (applyTxOps tx1 ops).uncommitted =
      Trie.hash (applyTxOps tx2 ops).uncommitted
    rw [applyTxOps_uncongr ops tx1 tx2 (e1.trans e2.symm)]
  · intro seg val cs cs' h
    simp [Trie.hash, h]

/-- Witness for C4 with two storages differing in history and block ids. -/
theorem hash_determinism_witness :
    (commit ⟨[(1, Trie.leaf [2] 3)], true⟩
        (applyTxOps ⟨1, Trie.leaf [2] 3⟩ [TxOp.insertOp [5] 6]) 10).2 =
      (commit ⟨[(9, Trie.empty), (1, Trie.leaf [2] 3)], true⟩
        (applyTxOps ⟨1, Trie.leaf [2] 3⟩ [TxOp.insertOp [5] 6]) 11).2 ∧
    (∀ (seg : List Nat) (val : Option Nat) (cs cs' : Children),
      Children.slotHashes cs = Children.slotHashes cs' →
      Trie.hash (.node seg val cs) = Trie.hash (.node seg val cs')) :=
  hash_determinism ⟨[(1, Trie.leaf [2] 3)], false⟩
    ⟨[(9, Trie.empty), (1, Trie.leaf [2] 3)], false⟩
    ⟨[(1, Trie.leaf [2] 3)], true⟩ ⟨[(9, Trie.empty), (1, Trie.leaf [2] 3)], true⟩
    1 (Trie.leaf [2] 3) ⟨1, Trie.leaf [2] 3⟩ ⟨1, Trie.leaf [2] 3⟩
    [TxOp.insertOp [5] 6] 10 11 rfl rfl rfl rfl

/-- C6: after every sequence of inserts and deletes through an open
transaction (in particular at commit time), the working trie has no node
with exactly one child and no stored leaf value. -/
theorem path_compression (st st' : TrieFileStorage) (parent : Nat)
    (tx₀ : TrieStorageTransaction) (ops : List TxOp)
    (hwf : wfStore st = true)
    (hb : beginBlock st parent = (st', .ok tx₀)) :
    Trie.noSingle (applyTxOps tx₀ ops).uncommitted = true := by
  obtain ⟨hl, -, -, -, -⟩ := beginBlock_ok st st' parent tx₀ hb
  exact wfRoot_noSingle _ (wfRoot_applyTxOps ops tx₀
    (lookup_wfStore st.index parent tx₀.uncommitted hwf hl))

/-- Witness for C6 after inserts that split paths and a collapsing delete. -/
theorem path_compression_witness :
    Trie.noSingle (applyTxOps ⟨0, Trie.empty⟩
      [TxOp.insertOp [1, 2, 3] 10, TxOp.insertOp [1, 2, 4] 20,
       TxOp.insertOp [1, 5] 30, TxOp.deleteOp [1, 2, 3]]).uncommitted = true :=
  path_compression ⟨[(0, Trie.empty)], false⟩ ⟨[(0, Trie.empty)], true⟩ 0
    ⟨0, Trie.empty⟩
    [TxOp.insertOp [1, 2, 3] 10, TxOp.insertOp [1, 2, 4] 20,
     TxOp.insertOp [1, 5] 30, TxOp.deleteOp [1, 2, 3]] rfl rfl

/-- C7: `begin_block` on a block id absent from the index returns the
`UnknownParent` error and performs no mutation: the storage value returned
alongside the error is exactly the input storage. -/
theorem begin_block_unknown_parent (st : TrieFileStorage) (parent : Nat)
    (h : lookupBlock st.index parent = none) :
    beginBlock st parent = (st, .error .UnknownParent) := by
  unfold beginBlock
  rw [h]

/-- Witness for C7 at a concrete store and unknown block id. -/
theorem begin_block_unknown_parent_witness :
    beginBlock ⟨[(1, Trie.empty)], true⟩ 2 =
      (⟨[(1, Trie.empty)], true⟩, .error .UnknownParent) :=
  begin_block_unknown_parent ⟨[(1, Trie.empty)], true⟩ 2 rfl

end Marf

namespace Marf

theorem encList_append_inj (xs xs' r r' : List Nat)
    (h : encList xs ++ r = encList xs' ++ r') : xs = xs' ∧ r = r' := by
  simp only [encList, List.cons_append, List.cons.injEq] at h
  obtain ⟨hlen, happ⟩ := h
  exact List.append_inj happ hlen

theorem encOptVal_append_inj (o o' : Option Nat) (r r' : List Nat)
    (h : encOptVal o ++ r = encOptVal o' ++ r') : o = o' ∧ r = r' := by
  cases o with
  | none =>
    cases o' with
    | none =>
      simp only [encOptVal, List.cons_append, List.nil_append,
        List.cons.injEq] at h
      exact ⟨rfl, h.2⟩
    | some w => simp [encOptVal] at h
  | some v =>
    cases o' with
    | none => simp [encOptVal] at h
    | some w =>
      simp only [encOptVal, List.cons_append, List.nil_append,
        List.cons.injEq] at h
      exact ⟨by rw [h.2.1], h.2.2⟩

theorem encSlots_append_inj : ∀ (n : Nat) (ps ps' : List (Nat × List Nat))
    (r r' : List Nat), ps.length = n → ps'.length = n →
    encSlots ps ++ r = encSlots ps' ++ r' → ps = ps' ∧ r = r'
  | 0, ps, ps', r, r' => by
    intro h1 h2 h
    rw [List.length_eq_zero] at h1 h2
    subst h1
    subst h2
    simpa [encSlots] using h
  | n + 1, ps, ps', r, r' => by
    intro h1 h2 h
    cases ps with
    | nil => simp at h1
    | cons p ps0 =>
      cases ps' with
      | nil => simp at h2
      | cons q qs0 =>
        obtain ⟨b, hl⟩ := p
        obtain ⟨b', hl'⟩ := q
        simp only [encSlots, List.cons_append, List.append_assoc,
          List.cons.injEq] at h
        obtain ⟨hb, happ⟩ := h
        obtain ⟨hh, hrest⟩ := encList_append_inj hl hl' _ _ happ
        obtain ⟨hps, hr⟩ := encSlots_append_inj n ps0 qs0 r r'
          (by simpa using h1) (by simpa using h2) hrest
        exact ⟨by rw [hb, hh, hps], hr⟩

theorem hashNode_inj (seg seg' : List Nat) (ch ch' : List (Nat × List Nat))
    (val val' : Option Nat)
    (h : hashNode seg ch val = hashNode seg' ch' val') :
    seg = seg' ∧ ch = ch' ∧ val = val' := by
  unfold hashNode at h
  rw [List.append_assoc, List.append_assoc] at h
  obtain ⟨hval, h2⟩ := encOptVal_append_inj val val' _ _ h
  obtain ⟨hseg, h3⟩ := encList_append_inj seg seg' _ _ h2
  simp only [List.cons.injEq] at h3
  obtain ⟨hlen, hs⟩ := h3
  have hch := encSlots_append_inj ch.length ch ch' [] [] rfl hlen.symm
    (by simpa using hs)
  exact ⟨hseg, hch.1, hval⟩

theorem lookupSlot_insOrdered : ∀ (ps : List (Nat × List Nat)) (b : Nat)
    (h : List Nat), lookupSlot (insOrdered ps b h) b = some h
  | [], b, h => by simp [insOrdered, lookupSlot]
  | (b', h') :: rest, b, h => by
    by_cases hbb : b = b'
    · subst hbb
      simp [insOrdered, lookupSlot]
    · simp only [insOrdered, if_neg hbb]
      by_cases hlt : b < b'
      · simp [hlt, lookupSlot]
      · simp only [if_neg hlt, lookupSlot, if_neg hbb]
        exact lookupSlot_insOrdered rest b h

theorem lookupSlot_slotHashes : ∀ (cs : Children) (b : Nat) (h : List Nat),
    lookupSlot (Children.slotHashes cs) b = some h →
    ∃ c, Children.findSlot cs b = some c ∧ Trie.hash c = h
  | .nil, b, h => by
    intro hx
    simp [Children.slotHashes, lookupSlot] at hx
  | .cons b' c rest, b, h => by
    intro hx
    simp only [Children.slotHashes, lookupSlot] at hx
    by_cases hbb : b = b'
    · rw [if_pos hbb] at hx
      refine ⟨c, by simp [Children.findSlot, hbb], ?_⟩
      injection hx
    · rw [if_neg hbb] at hx
      obtain ⟨c0, hf, hh⟩ := lookupSlot_slotHashes rest b h hx
      exact ⟨c0, by simp [Children.findSlot, hbb, hf], hh⟩

theorem getAt_findSlot : ∀ (cs : Children) (b : Nat) (k' : List Nat) (c : Trie),
    Children.findSlot cs b = some c → Children.getAt cs b k' = Trie.get c k'
  | .nil, b, _, c => by
    intro h
    simp [Children.findSlot] at h
  | .cons b' c0 rest, b, k', c => by
    intro h
    by_cases hbb : b = b'
    · simp only [Children.findSlot, if_pos hbb, Option.some.injEq] at h
      subst h
      simp [Children.getAt, hbb]
    · simp only [Children.findSlot, if_neg hbb] at h
      simp only [Children.getAt, if_neg hbb]
      exact getAt_findSlot rest b k' c h

theorem drop_len_append (xs k : List Nat) : (xs ++ k).drop xs.length = k := by
  have h := drop_append_len xs k 0
  simpa using h

theorem verify_sound : ∀ (steps : List ProofStep) (t : Trie)
    (termSeg : List Nat) (termCh : List (Nat × List Nat)) (v : Nat)
    (k : List Nat),
    recomputeRoot steps (hashNode termSeg termCh (some v)) = Trie.hash t →
    (steps.map (fun s => s.seg ++ [s.slot])).flatten ++ termSeg = k →
    Trie.get t k = some v
  | [], t, termSeg, termCh, v, k => by
    intro hrec hpath
    obtain ⟨seg, val, cs⟩ := t
    simp only [recomputeRoot, Trie.hash] at hrec
    obtain ⟨hseg, hch, hval⟩ := hashNode_inj termSeg seg termCh
      (Children.slotHashes cs) (some v) val hrec
    simp only [List.map_nil, List.flatten_nil, List.nil_append] at hpath
    subst hpath
    subst hseg
    simp only [Trie.get, begins_refl, if_pos, List.drop_length]
    exact hval.symm
  | s :: rest, t, termSeg, termCh, v, k => by
    intro hrec hpath
    obtain ⟨seg, val, cs⟩ := t
    simp only [recomputeRoot, Trie.hash] at hrec
    obtain ⟨hseg, hch, hval⟩ := hashNode_inj s.seg seg _
      (Children.slotHashes cs) s.val val hrec
    have hl := lookupSlot_insOrdered s.siblings s.slot
      (recomputeRoot rest (hashNode termSeg termCh (some v)))
    rw [hch] at hl
    obtain ⟨c, hf, hh⟩ := lookupSlot_slotHashes cs s.slot _ hl
    simp only [List.map_cons, List.flatten_cons, List.append_assoc,
      List.singleton_append] at hpath
    subst hpath
    rw [← hseg]
    simp only [Trie.get, begins_append, if_pos, drop_len_append]
    show Children.getAt cs s.slot
      ((rest.map (fun s => s.seg ++ [s.slot])).flatten ++ termSeg) = some v
    rw [getAt_findSlot cs s.slot _ c hf]
    exact verify_sound rest c termSeg termCh v _ hh.symm rfl

end Marf

namespace Marf

theorem slotHashesDrop_notin : ∀ (cs : Children) (b : Nat),
    Children.slotsGt cs b = true →
    Children.slotHashesDrop cs b = Children.slotHashes cs
  | .nil, _ => fun _ => rfl
  | .cons b' c rest, b => by
    intro h
    simp only [Children.slotsGt, Bool.and_eq_true, decide_eq_true_eq] at h
    have hne : ¬(b = b') := Nat.ne_of_lt h.1
    simp [Children.slotHashesDrop, Children.slotHashes, hne,
      slotHashesDrop_notin rest b h.2]

theorem insOrdered_front : ∀ (cs : Children) (b : Nat) (h : List Nat),
    Children.slotsGt cs b = true →
    insOrdered (Children.slotHashes cs) b h = (b, h) :: Children.slotHashes cs
  | .nil, _, _ => fun _ => rfl
  | .cons b' c rest, b, h => by
    intro hgt
    simp only [Children.slotsGt, Bool.and_eq_true, decide_eq_true_eq] at hgt
    have hne : ¬(b = b') := Nat.ne_of_lt hgt.1
    simp [Children.slotHashes, insOrdered, hne, hgt.1]

theorem findSlot_slotsGt_lt : ∀ (cs : Children) (b lo : Nat) (c : Trie),
    Children.findSlot cs b = some c → Children.slotsGt cs lo = true → lo < b
  | .nil, b, lo, c => by
    intro h _
    simp [Children.findSlot] at h
  | .cons b' c0 rest, b, lo, c => by
    intro h hgt
    simp only [Children.slotsGt, Bool.and_eq_true, decide_eq_true_eq] at hgt
    by_cases hbb : b = b'
    · subst hbb
      exact hgt.1
    · simp only [Children.findSlot, if_neg hbb] at h
      exact findSlot_slotsGt_lt rest b lo c h hgt.2

theorem reinsert_drop : ∀ (cs : Children) (b : Nat) (c : Trie),
    Children.slotsSortedC cs = true → Children.findSlot cs b = some c →
    insOrdered (Children.slotHashesDrop cs b) b (Trie.hash c) =
      Children.slotHashes cs
  | .nil, b, c => by
    intro _ h
    simp [Children.findSlot] at h
  | .cons b' c0 rest, b, c => by
    intro hs hf
    simp only [Children.slotsSortedC, Bool.and_eq_true] at hs
    obtain ⟨⟨hc0, hrest⟩, hgt⟩ := hs
    by_cases hbb : b = b'
    · subst hbb
      have hf' : c0 = c := by simpa [Children.findSlot] using hf
      subst hf'
      have hdropEq : Children.slotHashesDrop (.cons b c0 rest) b =
          Children.slotHashesDrop rest b := by
        simp [Children.slotHashesDrop]
      rw [hdropEq, slotHashesDrop_notin rest b hgt,
        insOrdered_front rest b (Trie.hash c0) hgt]
      simp [Children.slotHashes]
    · simp only [Children.findSlot, if_neg hbb] at hf
      have hlt : b' < b := findSlot_slotsGt_lt rest b b' c hf hgt
      simp only [Children.slotHashesDrop, if_neg hbb, Children.slotHashes]
      simp only [insOrdered, if_neg hbb, if_neg (Nat.not_lt.mpr (Nat.le_of_lt hlt))]
      rw [reinsert_drop rest b c hrest hf]

mutual

theorem proveOk : ∀ (t : Trie) (k : List Nat) (v : Nat),
    Trie.slotsSorted t = true → Trie.get t k = some v →
    ∃ pf, Trie.prove t k = some pf ∧ proofPath pf = k ∧
      recomputeRoot pf.steps (hashNode pf.termSeg pf.termChildren (some v)) =
        Trie.hash t
  | .node seg val cs, k, v => by
    intro hs hg
    simp only [Trie.slotsSorted] at hs
    cases hbeg : begins seg k with
    | false => simp [Trie.get, hbeg] at hg
    | true =>
      cases hdrop : k.drop seg.length with
      | nil =>
        simp only [Trie.get, hbeg, if_true, hdrop] at hg
        subst hg
        refine ⟨⟨[], seg, Children.slotHashes cs⟩, ?_, ?_, ?_⟩
        · simp [Trie.prove, hbeg, hdrop]
        · have hk : k = seg := by
            have h := begins_append_drop seg k hbeg
            rw [hdrop, List.append_nil] at h
            exact h.symm
          simp [proofPath, hk]
        · simp [recomputeRoot, Trie.hash]
      | cons b k' =>
        simp only [Trie.get, hbeg, if_true, hdrop] at hg
        obtain ⟨c, pf0, hf, hpv, hpath0, hrec0⟩ := proveAtOk cs b k' v hs hg
        refine ⟨⟨⟨seg, val, b, Children.slotHashesDrop cs b⟩ :: pf0.steps,
          pf0.termSeg, pf0.termChildren⟩, ?_, ?_, ?_⟩
        · simp [Trie.prove, hbeg, hdrop, hpv]
        · show ((seg ++ [b]) ++
              (List.map (fun s => s.seg ++ [s.slot]) pf0.steps).flatten) ++
              pf0.termSeg = k
          simp only [proofPath] at hpath0
          rw [List.append_assoc, hpath0, List.append_assoc,
            List.singleton_append]
          have h := begins_append_drop seg k hbeg
          rw [hdrop] at h
          exact h
        · simp only [recomputeRoot, Trie.hash]
          rw [hrec0]
          rw [reinsert_drop cs b c hs hf]
  
theorem proveAtOk : ∀ (cs : Children) (b : Nat) (k' : List Nat) (v : Nat),
    Children.slotsSortedC cs = true → Children.getAt cs b k' = some v →
    ∃ c pf, Children.findSlot cs b = some c ∧
      Children.proveAt cs b k' = some pf ∧ proofPath pf = k' ∧
      recomputeRoot pf.steps (hashNode pf.termSeg pf.termChildren (some v)) =
        Trie.hash c
  | .nil, b, k', v => by
    intro _ hg
    simp [Children.getAt] at hg
  | .cons b' c0 rest, b, k', v => by
    intro hs hg
    simp only [Children.slotsSortedC, Bool.and_eq_true] at hs
    obtain ⟨⟨hc0, hrest⟩, -⟩ := hs
    by_cases hbb : b = b'
    · subst hbb
      simp only [Children.getAt, if_pos rfl] at hg
      obtain ⟨pf, hpv, hpath, hrec⟩ := proveOk c0 k' v hc0 hg
      exact ⟨c0, pf, by simp [Children.findSlot],
        by simp [Children.proveAt, hpv], hpath, hrec⟩
    · simp only [Children.getAt, if_neg hbb] at hg
      obtain ⟨c, pf, hf, hpv, hpath, hrec⟩ := proveAtOk rest b k' v hrest hg
      exact ⟨c, pf, by simp [Children.findSlot, hbb, hf],
        by simp [Children.proveAt, hbb, hpv], hpath, hrec⟩

end

end Marf

namespace Marf

/-- C5: after commit, the committed trie is readable under the new block id;
every present key has a proof that recomputes to the committed root hash;
and for a value the trie does not hold at a key (in particular any value at
a never-inserted key), no proof verifies against that root hash. -/
theorem proof_soundness (st st' : TrieFileStorage) (tx : TrieStorageTransaction)
    (newId : Nat) (rootHash : List Nat) (k : List Nat)
    (hwf : Trie.wfRoot tx.uncommitted = true)
    (hc : commit st tx newId = (st', rootHash)) :
    openRead st' newId = .ok tx.uncommitted ∧
    (∀ v, Trie.get tx.uncommitted k = some v →
      ∃ pf, Trie.prove tx.uncommitted k = some pf ∧
        verifyProof rootHash k v pf = true) ∧
    (∀ v, Trie.get tx.uncommitted k ≠ some v →
      ∀ pf, verifyProof rootHash k v pf = false) := by
  unfold commit at hc
  simp only [Prod.mk.injEq] at hc
  obtain ⟨hst, hroot⟩ := hc
  subst hroot
  refine ⟨?_, ?_, ?_⟩
  · rw [← hst]
    simp [openRead, lookupBlock]
  · intro v hv
    obtain ⟨pf, hpv, hpath, hrec⟩ :=
      proveOk tx.uncommitted k v (wfRoot_slotsSorted _ hwf) hv
    refine ⟨pf, hpv, ?_⟩
    simp [verifyProof, hpath, hrec]
  · intro v hv pf
    cases hres : verifyProof (Trie.hash tx.uncommitted) k v pf with
    | false => rfl
    | true =>
      exfalso
      simp only [verifyProof, Bool.and_eq_true, decide_eq_true_eq] at hres
      refine hv (verify_sound pf.steps tx.uncommitted pf.termSeg
        pf.termChildren v k hres.2 ?_)
      have hp := hres.1
      simp only [proofPath] at hp
      exact hp

/-- Witness for C5: a verifying proof exists for the committed key and no
proof verifies a wrong value. -/
theorem proof_soundness_witness :
    (∃ pf, Trie.prove (Trie.leaf [2] 3) [2] = some pf ∧
      verifyProof (Trie.hash (Trie.leaf [2] 3)) [2] 3 pf = true) ∧
    (∀ pf, verifyProof (Trie.hash (Trie.leaf [2] 3)) [2] 9 pf = false) := by
  have h := proof_soundness ⟨[], false⟩ ⟨[(1, Trie.leaf [2] 3)], false⟩
    ⟨0, Trie.leaf [2] 3⟩ 1 (Trie.hash (Trie.leaf [2] 3)) [2] rfl rfl
  exact ⟨h.2.1 3 rfl, h.2.2 9 (by decide)⟩

end Marf
